import Mathlib

/-!
# Verification of the E1epack incremental translation orchestrator

Shallow embedding of the Python sources under `.github/scripts/translator/`
(`config.py`, `file_ops.py`, `git_changes.py`, `translator.py`,
`translation_flow.py`) together with theorems settling the frozen claims.

Modelling conventions:
* A Python `dict` (all localization dictionaries preserve insertion order)
  is modelled as an ordered association list `KVMap := List (String × JValue)`;
  dictionaries produced by the program have pairwise distinct keys, which
  appears as a `Nodup` hypothesis where a theorem needs it.
* JSON values occurring in the localization data are either strings or the
  transient "candidate lists" produced by the reference merge (spec §3 and
  §9 describe exactly this tagged union), modelled by `JValue`.
* Python set iteration has no specified order; wherever the code iterates
  over a set (`new_keys - old_keys`, `old_keys & new_keys`) the embedding
  iterates in the insertion order of the underlying dictionary, a canonical
  choice; the claims under scrutiny are order-insensitive.
* Temperatures (floats that are only ever passed around, never computed
  with) are modelled as rationals.
* `json.loads` applied to the model's reply is an external library call and
  is modelled as an abstract parameter `parse : List Char → Option KVMap`
  (`none` = `json.JSONDecodeError`).
-/

/-- JSON values occurring in localization dictionaries: a plain string, or
the ordered candidate list produced by the reference merge
(`merge_namespace_translations` / `get_merged_reference_translations`). -/
inductive JValue where
  | str (s : String)
  | arr (vs : List String)
deriving DecidableEq, Repr

/-- An ordered key→value dictionary (Python `dict`, insertion ordered). -/
abbrev KVMap := List (String × JValue)

/-- The key set of a dictionary. -/
def keysOf (m : KVMap) : Finset String := (m.map Prod.fst).toFinset

namespace Config

/-- `config.py`: `BATCH_SIZE = 40`. -/
def BATCH_SIZE : Nat := 40

/-- `config.py`: `MAX_CONTEXT = 10`. -/
def MAX_CONTEXT : Nat := 10

/-- `config.py`: `MAX_INDIVIDUAL_RETRIES = 10`. -/
def MAX_INDIVIDUAL_RETRIES : Nat := 10

/-- `config.py`: `CONTEXT_SIZE = 4`. -/
def CONTEXT_SIZE : Nat := 4

/-- `config.py`: `DEFAULT_TEMPERATURE = 1.3` (floats modelled as rationals). -/
def DEFAULT_TEMPERATURE : ℚ := 13/10

/-- `config.py`: `TEMPERATURE_ADJUSTMENTS = [1.3, 1.3, 1.2, 1.0, 0.7]`. -/
def TEMPERATURE_ADJUSTMENTS : List ℚ := [13/10, 13/10, 12/10, 1, 7/10]

end Config

/-- The reserved marker key smuggled inside request payloads
(`'__core_keys__'` in `translator.py` / `file_ops.py`). -/
def CORE_KEYS_MARKER : String := "__core_keys__"

namespace Translator

/-! ## Placeholder extraction (`validate_placeholder_consistency`, lines 83–95)

The Python code runs `re.findall(r'%(?:\d+\$)?s', text)`: a left-to-right,
non-overlapping scan.  At a `'%'` the regex matches `%<digits>$s` when the
maximal digit run after the `'%'` is non-empty and is followed by `'$'` then
`'s'` (with `\d+` greedy, only the maximal run can succeed, and when the
optional group fails the empty alternative needs an `'s'` directly after the
`'%'`, which is then a digit, so the whole match fails); otherwise it matches
`%s` when `'s'` follows directly.  After a match the scan resumes past the
matched text; since a token contains no `'%'` after its first character, no
match can start inside another, and the fuel-indexed scan below (fuel bounds
the number of characters inspected, one step consumes at least one) computes
exactly the same token list. -/

/-- One pass of the regex scan; `fuel` dominates the input length. -/
def findPlaceholdersGo : Nat → List Char → List String
  | 0, _ => []
  | _, [] => []
  | fuel + 1, c :: rest =>
    if c = '%' then
      let ds := rest.takeWhile Char.isDigit
      match rest.drop ds.length with
      | '$' :: 's' :: tail =>
        if ds = [] then findPlaceholdersGo fuel rest
        else String.mk ('%' :: (ds ++ ['$', 's'])) :: findPlaceholdersGo fuel tail
      | _ =>
        match rest with
        | 's' :: tail => "%s" :: findPlaceholdersGo fuel tail
        | _ => findPlaceholdersGo fuel rest
    else findPlaceholdersGo fuel rest

/-- `re.findall(r'%(?:\d+\$)?s', text)`. -/
def findPlaceholders (text : String) : List String :=
  findPlaceholdersGo text.data.length text.data

/-- Code-point lexicographic comparison of strings (as in CPython, which
compares strings by code points). -/
def charListLe : List Char → List Char → Bool
  | [], _ => true
  | _ :: _, [] => false
  | c :: cs, d :: ds => if c = d then charListLe cs ds else decide (c.toNat < d.toNat)

/-- `strLe a b` is Python's `a <= b` on strings. -/
def strLe (a b : String) : Bool := charListLe a.data b.data

/-- Insertion into a sorted list. -/
def insertSorted (s : String) : List String → List String
  | [] => [s]
  | t :: ts => if strLe s t then s :: t :: ts else t :: insertSorted s ts

/-- Python's `sorted` on a list of strings (insertion sort; only sortedness
and permutation-invariance are ever used, which any sort shares). -/
def sortStrings (l : List String) : List String := l.foldr insertSorted []

/-- Sortedness with respect to `strLe`. -/
def StrSorted (l : List String) : Prop := l.Pairwise (fun a b => strLe a b = true)

/-- `validate_placeholder_consistency` (`translator.py` lines 83–95):
`sorted(original_placeholders) == sorted(translated_placeholders)`. -/
def validate_placeholder_consistency (original_text translated_text : String) : Bool :=
  decide (sortStrings (findPlaceholders original_text) =
          sortStrings (findPlaceholders translated_text))

/-! ## Result validation (`validate_translation_result`, lines 97–148) -/

/-- The reference value used for the placeholder check (lines 134–142):
the first element when the original value is a list (empty string for an
empty list), the string itself otherwise. -/
def reference_value : JValue → String
  | .str s => s
  | .arr [] => ""
  | .arr (v :: _) => v

/-- Error messages appended by `validate_translation_result`, by raising
site (the Python strings carry the offending keys; only identity matters). -/
inductive ValidationError where
  | missingKeys (ks : Finset String)
  | extraKeys (ks : Finset String)
  | nonString (k : String)
  | placeholderMismatch (k : String)
deriving DecidableEq

/-- Per-key check of the loop body (lines 123–146): the translated value
must be a string, and its placeholder multiset must match the reference. -/
def check_translated_value (k : String) (ov tv : JValue) : List ValidationError :=
  match tv with
  | .arr _ => [.nonString k]
  | .str s =>
    if validate_placeholder_consistency (reference_value ov) s then []
    else [.placeholderMismatch k]

/-- `validate_translation_result` (lines 97–148). -/
def validate_translation_result (original translated : KVMap) : List ValidationError :=
  let originalKeys := keysOf original
  let translatedKeys := keysOf translated
  let keyErrors :=
    if originalKeys ≠ translatedKeys then
      (if originalKeys \ translatedKeys ≠ ∅ then
        [ValidationError.missingKeys (originalKeys \ translatedKeys)] else []) ++
      (if translatedKeys \ originalKeys ≠ ∅ then
        [ValidationError.extraKeys (translatedKeys \ originalKeys)] else [])
    else []
  let valueErrors :=
    (original.filter (fun e => decide (e.1 ∈ translatedKeys))).flatMap
      (fun e => check_translated_value e.1 e.2 ((translated.lookup e.1).getD (.str "")))
  keyErrors ++ valueErrors

/-! ## `translate_batch` (`translator.py` lines 267–421)

The HTTP round trip is external; what reaches the post-processing is either
an exception before the reply content is extracted (transport error,
non-2xx status from `raise_for_status`, empty response, unparseable
response envelope, missing `choices[0].message.content` — all raised
without the marker substring `"翻译验证失败"` in their message) or the
textual reply content. -/

/-- Outcome of the HTTP call as seen by the post-processing code. -/
inductive ApiResponse where
  | fail
  | ok (content : List Char)

/-- Outcome of one `translate_batch` call as seen by
`execute_translation_request`: a returned dictionary, or an exception whose
message does (`isValidation = true`, raised as `"翻译验证失败: …"`) or does
not contain the substring `"翻译验证失败"` that the retry loop tests for. -/
inductive BatchResult where
  | ok (r : KVMap)
  | err (isValidation : Bool)
deriving DecidableEq

/-- Python `str.strip()`: drop whitespace from both ends. -/
def pyStrip (l : List Char) : List Char :=
  ((l.dropWhile Char.isWhitespace).reverse.dropWhile Char.isWhitespace).reverse

/-- Code-fence cleaning of the reply content (lines 381–389): strip, drop a
leading ```json (7 chars), then a leading ``` (3 chars), then a trailing
``` (3 chars), strip again. -/
def stripFences (content : List Char) : List Char :=
  let t := pyStrip content
  let t := if "```json".data.isPrefixOf t then t.drop 7 else t
  let t := if "```".data.isPrefixOf t then t.drop 3 else t
  let t := if "```".data.isSuffixOf t then t.take (t.length - 3) else t
  pyStrip t

/-- `translate_batch` (lines 267–421), post-HTTP processing.  `parse` is
`json.loads` on the cleaned reply content (`none` = `JSONDecodeError`, in
which case the code raises `ValueError("JSON解析失败: …")`, whose message
does not contain `"翻译验证失败"`).  A failed validation raises
`ValueError("翻译验证失败: …")`. -/
def translate_batch (parse : List Char → Option KVMap) (texts : KVMap)
    (resp : ApiResponse) : BatchResult :=
  if texts = [] then .ok []
  else
    let texts_to_translate := texts.filter (fun e => decide (e.1 ≠ CORE_KEYS_MARKER))
    if texts_to_translate = [] then .ok []
    else
      match resp with
      | .fail => .err false
      | .ok content =>
        match parse (stripFences content) with
        | none => .err false
        | some translated_dict =>
          if validate_translation_result texts_to_translate translated_dict = [] then
            .ok translated_dict
          else
            .err true

/-! ## Retry state machine (`execute_translation_request`, lines 502–599) -/

/-- Temperature/model escalation for validation-failure retries
(`get_temperature_and_mode`, lines 519–528).  `validation_attempt` is the
current value of `validation_failure_count`. -/
def get_temperature_and_mode (non_thinking_mode : Bool) (validation_attempt : Nat) :
    ℚ × Bool :=
  if validation_attempt ≤ 5 then
    (Config.TEMPERATURE_ADJUSTMENTS.getD (validation_attempt - 1) 0, non_thinking_mode)
  else
    let cycle_pos := (validation_attempt - 6) % 5
    (Config.TEMPERATURE_ADJUSTMENTS.getD cycle_pos 0, !non_thinking_mode)

/-- Parameters used for an attempt (lines 536–544): escalated when at least
one validation failure has occurred, otherwise temperature `1.3` and the
translator's own model variant. -/
def attemptParams (non_thinking_mode : Bool) (validation_failure_count : Nat) : ℚ × Bool :=
  if validation_failure_count > 0 then
    get_temperature_and_mode non_thinking_mode validation_failure_count
  else
    (13/10, non_thinking_mode)

/-- Backoff before a retry (lines 578 and 583): 1 second after a validation
failure, 5 seconds after an API failure. -/
def retryWaitSeconds (is_validation_failure : Bool) : Nat :=
  if is_validation_failure then 1 else 5

/-- Final state of `execute_translation_request`: the two failure counters,
the returned mapping (empty on soft failure), and the number of attempts
made (`total_attempts`). -/
structure ExecResult where
  api_failures : Nat
  validation_failures : Nat
  result : KVMap
  total_attempts : Nat
deriving DecidableEq

/-- The retry loop of `execute_translation_request` (lines 532–599).
`attempt t` is the outcome of the `t`-th call of `translate_batch` (the
call is external I/O, so the sequence of outcomes is a parameter); `R` is
`max_individual_retries`; `api`/`val` are the failure counters and `t` the
number of attempts already made.  An empty successful result is counted as
a validation failure (lines 554–563); an exception increments the channel
selected by the `"翻译验证失败" in error_str` test (lines 570–599). -/
def execLoop (R : Nat) (attempt : Nat → BatchResult) (api val t : Nat) : ExecResult :=
  if h : api < R ∧ val < R then
    match attempt t with
    | .ok r =>
      if r = [] then
        if val + 1 < R then execLoop R attempt api (val + 1) (t + 1)
        else ⟨api, val + 1, [], t + 1⟩
      else ⟨api, val, r, t + 1⟩
    | .err true =>
      if api < R ∧ val + 1 < R then execLoop R attempt api (val + 1) (t + 1)
      else ⟨api, val + 1, [], t + 1⟩
    | .err false =>
      if api + 1 < R ∧ val < R then execLoop R attempt (api + 1) val (t + 1)
      else ⟨api + 1, val, [], t + 1⟩
  else ⟨api, val, [], t⟩
termination_by (R - api) + (R - val)
decreasing_by
  · omega
  · omega
  · omega

/-- `execute_translation_request` (lines 502–599): run the retry loop from
zeroed counters.  In the program `R = MAX_INDIVIDUAL_RETRIES`. -/
def execute_translation_request (R : Nat) (attempt : Nat → BatchResult) : ExecResult :=
  execLoop R attempt 0 0 0

/-! ## Batch scheduler (`split_texts_with_context_guarantee`, lines 691–767) -/

/-- One batch dictionary produced by the scheduler.  A Python batch is a
single `dict`; the entries to translate and the reserved
`'__core_keys__'` entry (absent in the single-batch branch, where the code
returns `[dict(items)]` without a marker) are modelled as two fields.  The
code stores `list(set(core_keys))`, whose order is unspecified; the model
fixes chunk order, and the claims read the marker as a set. -/
structure Batch where
  entries : KVMap
  core_keys : Option (List String)
deriving DecidableEq

/-- Number of iterations of `for i in range(0, total_items, batch_size)`. -/
def numChunks (total batch_size : Nat) : Nat := (total + batch_size - 1) / batch_size

/-- Loop body of `split_texts_with_context_guarantee` for the chunk
starting at index `i` (lines 715–764): core items `items[i:i+batch_size]`
plus boundary context chosen by position (first chunk: trailing only; last
chunk: leading only; interior: `context_size//2` on each side, clipped at
the edges). -/
def mkBatch (items : KVMap) (batch_size context_size i : Nat) : Batch :=
  let total := items.length
  let batch_end := min (i + batch_size) total
  let core_items := (items.drop i).take batch_size
  let context_items :=
    if i = 0 then
      (items.drop batch_end).take context_size
    else if i + batch_size ≥ total then
      (items.drop (i - context_size)).take (i - (i - context_size))
    else
      let half_context := context_size / 2
      (items.drop (i - half_context)).take (i - (i - half_context)) ++
        (items.drop batch_end).take half_context
  ⟨core_items ++ context_items, some (core_items.map Prod.fst)⟩

/-- `split_texts_with_context_guarantee` (lines 691–767). -/
def split_texts_with_context_guarantee (texts : KVMap) (batch_size context_size : Nat) :
    List Batch :=
  if texts = [] then []
  else if texts.length ≤ batch_size then [⟨texts, none⟩]
  else
    (List.range (numChunks texts.length batch_size)).map
      (fun j => mkBatch texts batch_size context_size (j * batch_size))

end Translator

namespace FileOps

/-! ## Context window builder (`get_context_for_keys`, `file_ops.py`
lines 200–263) -/

/-- Indices contributed for one target key (lines 237–249): the key's
position in the source order, up to `max_context//2` keys before and up to
`max_context//2` keys after, clipped at the edges; a target key absent from
the source contributes nothing (`except ValueError: continue`).  Python
appends the neighbours only; the target itself is already in the starting
set. -/
def contextWindow (source_keys : List String) (k : String) (max_context : Nat) :
    List String :=
  match source_keys.indexOf? k with
  | none => []
  | some idx =>
    let start := idx - max_context / 2
    let stop := min source_keys.length (idx + max_context / 2 + 1)
    (source_keys.drop start).take (idx - start) ++
      (source_keys.drop (idx + 1)).take (stop - (idx + 1))

/-- The deduplication pass (lines 251–255): walk `source_keys` in order and
keep a key when it is in `result_keys` and not yet kept. -/
def buildUnique (source_keys result_keys : List String) : List String :=
  source_keys.foldl (fun acc k => if k ∈ result_keys ∧ k ∉ acc then acc ++ [k] else acc) []

/-- `get_context_for_keys` (lines 200–263).  The Python function returns a
single dict with the reserved `'__core_keys__'` entry added last; the model
returns the entry list and the marker separately.  `list(target_set)` has
unspecified order and is only ever used for membership tests, so it is
modelled by the `target_keys` list itself (same members). -/
def get_context_for_keys (source_dict : KVMap) (target_keys : List String)
    (max_context : Nat) (force_context : Bool) : KVMap × List String :=
  let source_keys := source_dict.map Prod.fst
  if force_context then (source_dict, target_keys)
  else if source_keys.length ≤ max_context then (source_dict, target_keys)
  else
    let result_keys :=
      target_keys ++ target_keys.flatMap (fun k => contextWindow source_keys k max_context)
    let unique_keys := buildUnique source_keys result_keys
    (unique_keys.map (fun k => (k, (source_dict.lookup k).getD (.str ""))), target_keys)

end FileOps

namespace GitChanges

/-- `KeyChange` (`config.py` lines 16–22). -/
structure KeyChange where
  key : String
  old_value : Option JValue
  new_value : Option JValue
  operation : String
deriving DecidableEq, Repr

/-- The `{added, deleted, modified}` dictionary returned by
`get_file_key_changes`. -/
structure ChangeSets where
  added : List KeyChange
  deleted : List KeyChange
  modified : List KeyChange
deriving DecidableEq, Repr

/-- Number of deletions carrying the string value `v`
(`deleted_value_counts`, `git_changes.py` lines 145–149; only
string-typed old values are counted). -/
def deletedValueCount (deleted : List KeyChange) (v : String) : Nat :=
  (deleted.filter (fun d => decide (d.old_value = some (.str v)))).length

/-- `deleted_index[v]` (lines 144–149): the dictionary assignment runs over
`deleted_keys` in order, so the last deletion with value `v` wins. -/
def deletedIndexLookup (deleted : List KeyChange) (v : String) : Option KeyChange :=
  (deleted.filter (fun d => decide (d.old_value = some (.str v)))).getLast?

/-- The loop over `added_keys` (lines 151–168).  Returns
`(added_remaining, used_deleted, new_modified)`; `used_deleted` is the set
of deleted keys consumed by a rename (modelled as a list, membership
only). -/
def renameLoop (deleted : List KeyChange) :
    List KeyChange → List String → List KeyChange × List String × List KeyChange
  | [], used => ([], used, [])
  | a :: rest, used =>
    let skip := fun _ : Unit =>
      let (ar, u, nm) := renameLoop deleted rest used
      (a :: ar, u, nm)
    match a.new_value with
    | some (.str v) =>
      if deletedValueCount deleted v = 1 then
        match deletedIndexLookup deleted v with
        | some d =>
          if d.key ∉ used then
            let (ar, u, nm) := renameLoop deleted rest (used ++ [d.key])
            (ar, u,
              (⟨a.key, d.old_value, a.new_value, "modified"⟩ : KeyChange) :: nm)
          else skip ()
        | none => skip ()
      else skip ()
    | _ => skip ()

/-- Rename detection (lines 140–173): pair each added key whose string
value is the value of a unique deletion with that deletion, reclassifying
the pair as a modification; skipped entirely when either list is empty. -/
def applyRenameDetection (added deleted modified : List KeyChange) :
    List KeyChange × List KeyChange × List KeyChange :=
  if added = [] ∨ deleted = [] then (added, deleted, modified)
  else
    let (added_remaining, used_deleted, new_modified) := renameLoop deleted added []
    let deleted_remaining := deleted.filter (fun d => decide (d.key ∉ used_deleted))
    (added_remaining, deleted_remaining, modified ++ new_modified)

/-- `get_file_key_changes` (`git_changes.py` lines 83–183).  The two
snapshots arrive as JSON-parse outcomes (`none` = `json.JSONDecodeError`,
handled by `except: pass` for the old side and by `load_json_file`
returning `None`, defaulted with `or {}`, for the new side); either way a
parse failure is replaced by the empty dictionary.  Set differences and the
intersection are iterated in dictionary insertion order (canonical choice
for Python's unordered set iteration). -/
def get_file_key_changes (oldParsed newParsed : Option KVMap) : ChangeSets :=
  let old_data := oldParsed.getD []
  let new_data := newParsed.getD []
  let added_keys := (new_data.filter (fun e => decide ((old_data.lookup e.1) = none))).map
    (fun e => (⟨e.1, none, some e.2, "added"⟩ : KeyChange))
  let deleted_keys := (old_data.filter (fun e => decide ((new_data.lookup e.1) = none))).map
    (fun e => (⟨e.1, some e.2, none, "deleted"⟩ : KeyChange))
  let modified_keys := (old_data.filter (fun e =>
      (new_data.lookup e.1).any (fun v => decide (v ≠ e.2)))).map
    (fun e => (⟨e.1, some e.2, new_data.lookup e.1, "modified"⟩ : KeyChange))
  let (a, d, m) := applyRenameDetection added_keys deleted_keys modified_keys
  ⟨a, d, m⟩

end GitChanges

namespace TranslationFlow

/-- Body of the per-(namespace, language) loop of
`perform_cleanup_extra_keys` (`translation_flow.py` lines 233–274):
namespaces with an empty merged reference are skipped (lines 236–238), as
are (namespace, language) pairs with an empty store (lines 246–248);
otherwise every key absent from the reference is deleted and the store
rewritten. -/
def cleanup_store (source_dict store : KVMap) : KVMap :=
  if source_dict = [] then store
  else if store = [] then store
  else store.filter (fun e => decide (e.1 ∈ keysOf source_dict))

/-- `perform_cleanup_extra_keys` (lines 222–276), as a transformation of
the persisted stores: pairs enumerated by the pass (namespace from
`get_namespace_list`, language from the catalogue) are cleaned, everything
else is untouched. -/
def perform_cleanup_extra_keys (namespaces languages : List String)
    (reference : String → KVMap) (stores : String → String → KVMap) :
    String → String → KVMap :=
  fun ns lang =>
    if ns ∈ namespaces ∧ lang ∈ languages then cleanup_store (reference ns) (stores ns lang)
    else stores ns lang

/-- Python `d[k] = v` on an insertion-ordered dict: replace in place if the
key exists, else append. -/
def dictSet (m : KVMap) (k : String) (v : JValue) : KVMap :=
  if (m.lookup k).isSome then m.map (fun e => if e.1 = k then (k, v) else e)
  else m ++ [(k, v)]

/-- Python `base.update(upd)`. -/
def dictUpdate (base upd : KVMap) : KVMap :=
  upd.foldl (fun acc e => dictSet acc e.1 e.2) base

/-- The accumulation performed by `execute_requests_concurrently`
(`translator.py` lines 633–648) for one (namespace, language) bucket:
every finished request's result is merged into the bucket with
`dict.update`.  The worker pool completes requests in some order; the model
takes the completion order as given by the list. -/
def accumulateResults (results : List KVMap) : KVMap :=
  results.foldl dictUpdate []

end TranslationFlow

/-! # Theorems -/

namespace Translator

theorem char_toNat_injective {c d : Char} (h : c.toNat = d.toNat) : c = d :=
  Char.eq_of_val_eq (UInt32.toNat.inj h)

theorem charListLe_total (a b : List Char) : charListLe a b = true ∨ charListLe b a = true := by
  induction a generalizing b with
  | nil => left; rfl
  | cons c cs ih =>
    cases b with
    | nil => right; rfl
    | cons d ds =>
      by_cases h : c = d
      · subst h
        simpa [charListLe] using ih ds
      · have h' : d ≠ c := fun hh => h hh.symm
        have hne : c.toNat ≠ d.toNat := fun he => h (char_toNat_injective he)
        simp only [charListLe, if_neg h, if_neg h', decide_eq_true_eq]
        omega

theorem charListLe_antisymm {a b : List Char} (h1 : charListLe a b = true)
    (h2 : charListLe b a = true) : a = b := by
  induction a generalizing b with
  | nil =>
    cases b with
    | nil => rfl
    | cons d ds => simp [charListLe] at h2
  | cons c cs ih =>
    cases b with
    | nil => simp [charListLe] at h1
    | cons d ds =>
      by_cases h : c = d
      · subst h
        simp only [charListLe, if_pos rfl] at h1 h2
        exact congrArg (c :: ·) (ih h1 h2)
      · have h' : d ≠ c := fun hh => h hh.symm
        simp only [charListLe, if_neg h, if_neg h', decide_eq_true_eq] at h1 h2
        omega

theorem charListLe_trans {a b c : List Char} (h1 : charListLe a b = true)
    (h2 : charListLe b c = true) : charListLe a c = true := by
  induction a generalizing b c with
  | nil => rfl
  | cons x xs ih =>
    cases b with
    | nil => simp [charListLe] at h1
    | cons y ys =>
      cases c with
      | nil => simp [charListLe] at h2
      | cons z zs =>
        by_cases hxy : x = y <;> by_cases hyz : y = z
        · subst hxy; subst hyz
          simp only [charListLe, if_pos rfl] at h1 h2 ⊢
          exact ih h1 h2
        · subst hxy
          simp only [charListLe, if_pos rfl] at h1
          simpa [charListLe, hyz] using h2
        · subst hyz
          simpa [charListLe, hxy] using h1
        · have hxz : x ≠ z := by
            intro he; subst he
            simp only [charListLe, if_neg hxy, decide_eq_true_eq] at h1
            simp only [charListLe, if_neg hyz, decide_eq_true_eq] at h2
            omega
          simp only [charListLe, if_neg hxy, decide_eq_true_eq] at h1
          simp only [charListLe, if_neg hyz, decide_eq_true_eq] at h2
          simp only [charListLe, if_neg hxz, decide_eq_true_eq]
          omega

theorem strLe_total (a b : String) : strLe a b = true ∨ strLe b a = true :=
  charListLe_total a.data b.data

theorem strLe_antisymm {a b : String} (h1 : strLe a b = true) (h2 : strLe b a = true) :
    a = b :=
  String.toList_inj.mp (charListLe_antisymm h1 h2)

theorem strLe_trans {a b c : String} (h1 : strLe a b = true) (h2 : strLe b c = true) :
    strLe a c = true := charListLe_trans h1 h2

theorem perm_insertSorted (s : String) (l : List String) :
    List.Perm (insertSorted s l) (s :: l) := by
  induction l with
  | nil => exact List.Perm.refl _
  | cons t ts ih =>
    by_cases h : strLe s t
    · simp [insertSorted, h]
    · simp only [insertSorted, if_neg h]
      exact (ih.cons t).trans (List.Perm.swap s t ts)

theorem perm_sortStrings (l : List String) : List.Perm (sortStrings l) l := by
  induction l with
  | nil => exact List.Perm.refl _
  | cons s ts ih => exact (perm_insertSorted s (sortStrings ts)).trans (ih.cons s)

theorem sorted_insertSorted {l : List String} (hl : StrSorted l) (s : String) :
    StrSorted (insertSorted s l) := by
  induction l with
  | nil => simp [insertSorted, StrSorted]
  | cons t ts ih =>
    rcases List.pairwise_cons.mp hl with ⟨ht, hts⟩
    by_cases h : strLe s t
    · simp only [insertSorted, if_pos h]
      refine List.pairwise_cons.mpr ⟨?_, hl⟩
      intro x hx
      rcases List.mem_cons.mp hx with rfl | hx
      · exact h
      · exact strLe_trans h (ht x hx)
    · simp only [insertSorted, if_neg h]
      refine List.pairwise_cons.mpr ⟨?_, ih hts⟩
      intro x hx
      have hx' : x = s ∨ x ∈ ts := by
        have := (perm_insertSorted s ts).mem_iff.mp hx
        simpa using this
      rcases hx' with rfl | hx'
      · rcases strLe_total x t with hh | hh
        · exact absurd hh h
        · exact hh
      · exact ht x hx'

theorem sorted_sortStrings (l : List String) : StrSorted (sortStrings l) := by
  induction l with
  | nil => simp [sortStrings, StrSorted]
  | cons s ts ih => exact sorted_insertSorted ih s

theorem eq_of_perm_of_strSorted {l₁ l₂ : List String} (hp : List.Perm l₁ l₂)
    (h₁ : StrSorted l₁) (h₂ : StrSorted l₂) : l₁ = l₂ := by
  haveI : IsAntisymm String (fun a b => strLe a b = true) := ⟨fun a b => strLe_antisymm⟩
  exact List.eq_of_perm_of_sorted hp h₁ h₂

theorem sortStrings_eq_iff (l₁ l₂ : List String) :
    sortStrings l₁ = sortStrings l₂ ↔ List.Perm l₁ l₂ := by
  constructor
  · intro h
    exact ((perm_sortStrings l₁).symm.trans (h ▸ List.Perm.refl _)).trans (perm_sortStrings l₂)
  · intro h
    refine eq_of_perm_of_strSorted ?_ (sorted_sortStrings l₁) (sorted_sortStrings l₂)
    exact ((perm_sortStrings l₁).trans h).trans (perm_sortStrings l₂).symm

theorem validate_placeholder_consistency_iff (o t : String) :
    validate_placeholder_consistency o t = true ↔
      Multiset.ofList (findPlaceholders o) = Multiset.ofList (findPlaceholders t) := by
  rw [validate_placeholder_consistency, decide_eq_true_eq, sortStrings_eq_iff]
  exact Multiset.coe_eq_coe.symm

end Translator

/-- **C4.** For every key shared between the input and the translated
output, the validator accepts the translated value (contributes no error to
`validate_translation_result`, whose per-key body is
`check_translated_value`) iff the multiset of placeholder tokens matching
`%(?:\d+\$)?s` in the translated value equals the multiset of such tokens
in the source value, the source value being `reference_value` (first
element for a list, empty string for an empty list).  The claim's example
pair is accepted resp. rejected. -/
theorem claim_C4_placeholder_validator :
    (∀ (k : String) (ov : JValue) (t : String),
      Translator.check_translated_value k ov (.str t) = [] ↔
        Multiset.ofList (Translator.findPlaceholders (Translator.reference_value ov)) =
          Multiset.ofList (Translator.findPlaceholders t)) ∧
    Translator.validate_placeholder_consistency "Deal %1$s damage to %2$s"
      "Infligez %1$s dégâts à %2$s" = true ∧
    Translator.validate_placeholder_consistency "Deal %1$s damage to %2$s"
      "Infligez des dégâts à %2$s" = false := by
  refine ⟨fun k ov t => ?_, by decide, by decide⟩
  rw [← Translator.validate_placeholder_consistency_iff]
  unfold Translator.check_translated_value
  constructor
  · intro h
    by_cases hc : Translator.validate_placeholder_consistency
        (Translator.reference_value ov) t
    · exact hc
    · simp [hc] at h
  · intro h
    simp [h]

namespace Translator

theorem execLoop_allApi (R : Nat) (attempt : Nat → BatchResult)
    (hA : ∀ t, attempt t = .err false) :
    ∀ n api val t, n = R - api → api < R → val < R →
      execLoop R attempt api val t = ⟨R, val, [], t + (R - api)⟩ := by
  intro n
  induction n with
  | zero => intro api val t hn h1 h2; omega
  | succ m ih =>
    intro api val t hn h1 h2
    rw [execLoop]
    rw [dif_pos ⟨h1, h2⟩]
    rw [hA t]
    by_cases hc : api + 1 < R ∧ val < R
    · rw [if_pos hc]
      rw [ih (api + 1) val (t + 1) (by omega) hc.1 h2]
      have harith : t + 1 + (R - (api + 1)) = t + (R - api) := by omega
      rw [harith]
    · rw [if_neg hc]
      have hR : api + 1 = R := by omega
      have harith : t + 1 = t + (R - api) := by omega
      rw [hR, harith]

theorem execLoop_allVal (R : Nat) (attempt : Nat → BatchResult)
    (hA : ∀ t, attempt t = .err true) :
    ∀ n api val t, n = R - val → api < R → val < R →
      execLoop R attempt api val t = ⟨api, R, [], t + (R - val)⟩ := by
  intro n
  induction n with
  | zero => intro api val t hn h1 h2; omega
  | succ m ih =>
    intro api val t hn h1 h2
    rw [execLoop]
    rw [dif_pos ⟨h1, h2⟩]
    rw [hA t]
    by_cases hc : api < R ∧ val + 1 < R
    · rw [if_pos hc]
      rw [ih api (val + 1) (t + 1) (by omega) h1 hc.2]
      have harith : t + 1 + (R - (val + 1)) = t + (R - val) := by omega
      rw [harith]
    · rw [if_neg hc]
      have hR : val + 1 = R := by omega
      have harith : t + 1 = t + (R - val) := by omega
      rw [hR, harith]

theorem execLoop_spec (R : Nat) (attempt : Nat → BatchResult) :
    ∀ n api val t, n = (R - api) + (R - val) → api < R → val < R →
      ((execLoop R attempt api val t).result = [] →
        (execLoop R attempt api val t).api_failures = R ∨
          (execLoop R attempt api val t).validation_failures = R) ∧
      ((execLoop R attempt api val t).result ≠ [] →
        (execLoop R attempt api val t).api_failures < R ∧
          (execLoop R attempt api val t).validation_failures < R) := by
  intro n
  induction n with
  | zero => intro api val t hn h1 h2; omega
  | succ m ih =>
    intro api val t hn h1 h2
    rw [execLoop, dif_pos ⟨h1, h2⟩]
    cases hat : attempt t with
    | ok r =>
      dsimp only
      by_cases hr : r = []
      · rw [if_pos hr]
        by_cases hv : val + 1 < R
        · rw [if_pos hv]
          exact ih api (val + 1) (t + 1) (by omega) h1 hv
        · rw [if_neg hv]
          exact ⟨fun _ => Or.inr (by dsimp only; omega), fun hne => absurd rfl hne⟩
      · rw [if_neg hr]
        exact ⟨fun he => absurd he hr, fun _ => ⟨h1, h2⟩⟩
    | err b =>
      cases b with
      | true =>
        dsimp only
        by_cases hc : api < R ∧ val + 1 < R
        · rw [if_pos hc]
          exact ih api (val + 1) (t + 1) (by omega) h1 hc.2
        · rw [if_neg hc]
          exact ⟨fun _ => Or.inr (by dsimp only; omega), fun hne => absurd rfl hne⟩
      | false =>
        dsimp only
        by_cases hc : api + 1 < R ∧ val < R
        · rw [if_pos hc]
          exact ih (api + 1) val (t + 1) (by omega) hc.1 h2
        · rw [if_neg hc]
          exact ⟨fun _ => Or.inl (by dsimp only; omega), fun hne => absurd rfl hne⟩

theorem execLoop_ok_source (R : Nat) (attempt : Nat → BatchResult) :
    ∀ n api val t, n = (R - api) + (R - val) →
      (execLoop R attempt api val t).result ≠ [] →
      ∃ u, attempt u = .ok (execLoop R attempt api val t).result := by
  intro n
  induction n with
  | zero =>
    intro api val t hn hne
    rw [execLoop] at hne ⊢
    by_cases h : api < R ∧ val < R
    · omega
    · rw [dif_neg h] at hne
      exact absurd rfl hne
  | succ m ih =>
    intro api val t hn hne
    by_cases h : api < R ∧ val < R
    · rw [execLoop, dif_pos h] at hne ⊢
      cases hat : attempt t with
      | ok r =>
        rw [hat] at hne
        dsimp only at hne ⊢
        by_cases hr : r = []
        · rw [if_pos hr] at hne ⊢
          by_cases hv : val + 1 < R
          · rw [if_pos hv] at hne ⊢
            exact ih api (val + 1) (t + 1) (by omega) hne
          · rw [if_neg hv] at hne
            exact absurd rfl hne
        · rw [if_neg hr] at hne ⊢
          exact ⟨t, hat⟩
      | err b =>
        rw [hat] at hne
        cases b with
        | true =>
          dsimp only at hne ⊢
          by_cases hc : api < R ∧ val + 1 < R
          · rw [if_pos hc] at hne ⊢
            exact ih api (val + 1) (t + 1) (by omega) hne
          · rw [if_neg hc] at hne
            exact absurd rfl hne
        | false =>
          dsimp only at hne ⊢
          by_cases hc : api + 1 < R ∧ val < R
          · rw [if_pos hc] at hne ⊢
            exact ih (api + 1) val (t + 1) (by omega) hne
          · rw [if_neg hc] at hne
            exact absurd rfl hne
    · rw [execLoop, dif_neg h] at hne
      exact absurd rfl hne

theorem finset_sdiff_of_ne {A B : Finset String} (h : A ≠ B) :
    A \ B ≠ ∅ ∨ B \ A ≠ ∅ := by
  by_contra hc
  push_neg at hc
  apply h
  apply Finset.Subset.antisymm
  · exact Finset.sdiff_eq_empty_iff_subset.mp hc.1
  · exact Finset.sdiff_eq_empty_iff_subset.mp hc.2

/-- A key-set mismatch always produces at least one validation error. -/
theorem validate_keyset_ne (original translated : KVMap)
    (h : keysOf original ≠ keysOf translated) :
    validate_translation_result original translated ≠ [] := by
  unfold validate_translation_result
  dsimp only
  rw [if_pos h]
  rcases finset_sdiff_of_ne h with hm | hx
  · rw [if_pos hm]
    simp
  · rw [if_pos hx]
    simp

/-- Conversely, passing validation forces equal key sets. -/
theorem validate_nil_keyset_eq (original translated : KVMap)
    (h : validate_translation_result original translated = []) :
    keysOf original = keysOf translated := by
  by_contra hne
  exact validate_keyset_ne original translated hne h

/-- A transport/HTTP/envelope failure raises without the validation marker
in the message, so `translate_batch` surfaces it as `.err false`. -/
theorem translate_batch_transport_err (parse : List Char → Option KVMap) (texts : KVMap)
    (h : texts.filter (fun e => decide (e.1 ≠ CORE_KEYS_MARKER)) ≠ []) :
    translate_batch parse texts .fail = .err false := by
  have htexts : texts ≠ [] := by
    intro he
    apply h
    rw [he]
    rfl
  unfold translate_batch
  rw [if_neg htexts, if_neg h]

/-- A reply whose content fails to parse as JSON after fence stripping
raises `ValueError("JSON解析失败: …")`, surfaced as `.err false`. -/
theorem translate_batch_parse_failure (parse : List Char → Option KVMap) (texts : KVMap)
    (c : List Char)
    (h : texts.filter (fun e => decide (e.1 ≠ CORE_KEYS_MARKER)) ≠ [])
    (hp : parse (stripFences c) = none) :
    translate_batch parse texts (.ok c) = .err false := by
  have htexts : texts ≠ [] := by
    intro he
    apply h
    rw [he]
    rfl
  unfold translate_batch
  rw [if_neg htexts, if_neg h]
  dsimp only
  rw [hp]

/-- Well-formed output with a mismatched key set fails validation and
raises `ValueError("翻译验证失败: …")`, surfaced as `.err true`. -/
theorem translate_batch_keyset_mismatch (parse : List Char → Option KVMap) (texts : KVMap)
    (c : List Char) (d : KVMap)
    (h : texts.filter (fun e => decide (e.1 ≠ CORE_KEYS_MARKER)) ≠ [])
    (hp : parse (stripFences c) = some d)
    (hk : keysOf (texts.filter (fun e => decide (e.1 ≠ CORE_KEYS_MARKER))) ≠ keysOf d) :
    translate_batch parse texts (.ok c) = .err true := by
  have htexts : texts ≠ [] := by
    intro he
    apply h
    rw [he]
    rfl
  unfold translate_batch
  rw [if_neg htexts, if_neg h]
  dsimp only
  rw [hp]
  dsimp only
  rw [if_neg (validate_keyset_ne _ _ hk)]

end Translator

/-- **C3.** `execute_translation_request` terminates with an empty result
exactly when one of the two failure counters reaches the maximum retry
count `R`; a run in which every attempt raises a transport error makes
exactly `R` attempts, ends with `api_failures = R` and
`validation_failures = 0`, and returns an empty mapping; a run in which
every attempt yields well-formed output is classified `.err true` by
`translate_batch` whenever the key set mismatches (so such a run exhausts
only the validation counter, ending with `api_failures = 0`,
`validation_failures = R`). -/
theorem claim_C3_retry_channel_exhaustion (R : Nat) (attempt : Nat → Translator.BatchResult)
    (hR : 0 < R) :
    ((Translator.execute_translation_request R attempt).result = [] ↔
      (Translator.execute_translation_request R attempt).api_failures = R ∨
        (Translator.execute_translation_request R attempt).validation_failures = R) ∧
    ((∀ t, attempt t = .err false) →
      Translator.execute_translation_request R attempt =
        ⟨R, 0, [], R⟩) ∧
    ((∀ t, attempt t = .err true) →
      Translator.execute_translation_request R attempt =
        ⟨0, R, [], R⟩) ∧
    (∀ (parse : List Char → Option KVMap) (texts : KVMap),
      texts.filter (fun e => decide (e.1 ≠ CORE_KEYS_MARKER)) ≠ [] →
      Translator.translate_batch parse texts .fail = .err false) ∧
    (∀ (parse : List Char → Option KVMap) (texts : KVMap) (c : List Char) (d : KVMap),
      texts.filter (fun e => decide (e.1 ≠ CORE_KEYS_MARKER)) ≠ [] →
      parse (Translator.stripFences c) = some d →
      keysOf (texts.filter (fun e => decide (e.1 ≠ CORE_KEYS_MARKER))) ≠ keysOf d →
      Translator.translate_batch parse texts (.ok c) = .err true) := by
  unfold Translator.execute_translation_request
  have spec := Translator.execLoop_spec R attempt ((R - 0) + (R - 0)) 0 0 0 rfl hR hR
  refine ⟨⟨spec.1, ?_⟩, ?_, ?_, ?_, ?_⟩
  · intro hor
    by_contra hne
    have := spec.2 hne
    omega
  · intro hA
    have := Translator.execLoop_allApi R attempt hA (R - 0) 0 0 0 rfl hR hR
    simpa using this
  · intro hA
    have := Translator.execLoop_allVal R attempt hA (R - 0) 0 0 0 rfl hR hR
    simpa using this
  · intro parse texts h
    exact Translator.translate_batch_transport_err parse texts h
  · intro parse texts c d h hp hk
    exact Translator.translate_batch_keyset_mismatch parse texts c d h hp hk

/-- Witness for C3 at `R = 10 = MAX_INDIVIDUAL_RETRIES`: an all-transport-
error run exhausts exactly the API counter in 10 attempts, an all-
validation-error run exhausts exactly the validation counter. -/
theorem claim_C3_retry_channel_exhaustion_witness :
    0 < 10 ∧
    Translator.execute_translation_request 10 (fun _ => .err false) =
      ⟨10, 0, [], 10⟩ ∧
    Translator.execute_translation_request 10 (fun _ => .err true) =
      ⟨0, 10, [], 10⟩ :=
  ⟨by decide,
   (claim_C3_retry_channel_exhaustion 10 _ (by decide)).2.1 (fun _ => rfl),
   (claim_C3_retry_channel_exhaustion 10 _ (by decide)).2.2.1 (fun _ => rfl)⟩

/-- **C1 (counterexample).** A concrete run refuting the claim: the HTTP
call succeeds but the reply content (`"garbage"`) fails to parse as JSON,
yet the attempt is classified as an **API** failure — the error raised is
`ValueError("JSON解析失败: …")`, which does not contain the substring
`"翻译验证失败"` tested by the retry loop — so `api_failures` ends at 1 and
`validation_failures` at 0, the opposite of what the claim states. -/
theorem claim_C1_counterexample :
    (Translator.translate_batch
        (fun s => if s = "OK".data then some [("k", JValue.str "v")] else none)
        [("k", JValue.str "v")] (.ok "garbage".data) = .err false) ∧
    Translator.execute_translation_request 10
        (fun _ => Translator.translate_batch
          (fun s => if s = "OK".data then some [("k", JValue.str "v")] else none)
          [("k", JValue.str "v")] (.ok "garbage".data)) =
      ⟨10, 0, [], 10⟩ := by
  constructor
  · rfl
  · unfold Translator.execute_translation_request
    have := Translator.execLoop_allApi 10
      (fun _ => Translator.translate_batch
        (fun s => if s = "OK".data then some [("k", JValue.str "v")] else none)
        [("k", JValue.str "v")] (.ok "garbage".data))
      (fun _ => rfl) 10 0 0 0 rfl (by omega) (by omega)
    simpa using this

/-- **C1 (amended).** For every attempt in which the HTTP call succeeds but
the reply content fails to parse as JSON (after stripping optional
code-fence wrapping), the retry state machine classifies the attempt as an
**API** failure: `translate_batch` raises without the validation marker
(`.err false`), the `api_failures` counter is incremented while
`validation_failures` is unchanged, the attempt is retried (after the
*longer* 5-second backoff, versus 1 second for validation failures) iff
`api_failures` is still below the maximum retry count. -/
theorem claim_C1_amended (parse : List Char → Option KVMap) (texts : KVMap)
    (c : List Char) (R api val t : Nat) (attempt : Nat → Translator.BatchResult)
    (h : texts.filter (fun e => decide (e.1 ≠ CORE_KEYS_MARKER)) ≠ [])
    (hp : parse (Translator.stripFences c) = none)
    (hs : attempt t = Translator.translate_batch parse texts (.ok c))
    (h1 : api < R) (h2 : val < R) :
    Translator.translate_batch parse texts (.ok c) = .err false ∧
    Translator.execLoop R attempt api val t =
      (if api + 1 < R ∧ val < R then Translator.execLoop R attempt (api + 1) val (t + 1)
       else ⟨api + 1, val, [], t + 1⟩) ∧
    Translator.retryWaitSeconds false = 5 ∧ Translator.retryWaitSeconds true = 1 := by
  have hb := Translator.translate_batch_parse_failure parse texts c h hp
  refine ⟨hb, ?_, rfl, rfl⟩
  rw [Translator.execLoop, dif_pos ⟨h1, h2⟩, hs, hb]

/-- Witness for the amended C1, at the counterexample's inputs. -/
theorem claim_C1_amended_witness :
    ([(("k" : String), JValue.str "v")].filter
        (fun e => decide (e.1 ≠ CORE_KEYS_MARKER)) ≠ []) ∧
    ((fun s => if s = "OK".data then some [(("k" : String), JValue.str "v")] else none)
        (Translator.stripFences "garbage".data) = none) ∧
    (0 : Nat) < 10 ∧
    Translator.translate_batch
        (fun s => if s = "OK".data then some [("k", JValue.str "v")] else none)
        [("k", JValue.str "v")] (.ok "garbage".data) = .err false :=
  ⟨by decide, by decide, by decide,
    (claim_C1_amended
      (fun s => if s = "OK".data then some [("k", JValue.str "v")] else none)
      [("k", JValue.str "v")] "garbage".data 10 0 0 0
      (fun _ => Translator.translate_batch
        (fun s => if s = "OK".data then some [("k", JValue.str "v")] else none)
        [("k", JValue.str "v")] (.ok "garbage".data))
      (by decide) (by decide) rfl (by decide) (by decide)).1⟩

/-- **C8.** Parameter escalation: with `n` prior validation failures, the
attempt uses `TEMPERATURE_ADJUSTMENTS[n-1]` and the translator's own model
variant for `n = 1..5`; from `n = 6` on the model variant is flipped and
the temperature schedule restarts cyclically (period 5); with no prior
validation failure (in particular when only API failures occurred) the
attempt uses the default temperature `1.3` and the original variant.  The
schedule is descending. -/
theorem claim_C8_escalation_schedule (mode : Bool) (n : Nat) :
    (Translator.attemptParams mode 0 = (Config.DEFAULT_TEMPERATURE, mode)) ∧
    (1 ≤ n → n ≤ 5 → Translator.attemptParams mode n =
      (Config.TEMPERATURE_ADJUSTMENTS.getD (n - 1) 0, mode)) ∧
    (6 ≤ n → Translator.attemptParams mode n =
      (Config.TEMPERATURE_ADJUSTMENTS.getD ((n - 6) % 5) 0, !mode)) ∧
    (6 ≤ n → Translator.attemptParams mode (n + 5) = Translator.attemptParams mode n) ∧
    Config.TEMPERATURE_ADJUSTMENTS.Sorted (· ≥ ·) := by
  refine ⟨rfl, ?_, ?_, ?_, ?_⟩
  · intro h1 h5
    unfold Translator.attemptParams Translator.get_temperature_and_mode
    rw [if_pos (by omega : 0 < n), if_pos h5]
  · intro h6
    unfold Translator.attemptParams Translator.get_temperature_and_mode
    rw [if_pos (by omega : 0 < n), if_neg (by omega : ¬n ≤ 5)]
  · intro h6
    unfold Translator.attemptParams Translator.get_temperature_and_mode
    rw [if_pos (by omega : 0 < n + 5), if_neg (by omega : ¬n + 5 ≤ 5),
      if_pos (by omega : 0 < n), if_neg (by omega : ¬n ≤ 5)]
    have : n + 5 - 6 = (n - 6) + 5 := by omega
    rw [this, Nat.add_mod_right]
  · simp only [Config.TEMPERATURE_ADJUSTMENTS, List.sorted_cons, List.mem_cons,
      List.mem_singleton, List.not_mem_nil, List.sorted_nil]
    norm_num

/-- Witness for C8: the third retry uses the third schedule temperature
with the original variant; the seventh uses the second schedule
temperature with the flipped variant. -/
theorem claim_C8_escalation_schedule_witness :
    (1 ≤ 3 ∧ 3 ≤ 5 ∧ Translator.attemptParams false 3 =
      (Config.TEMPERATURE_ADJUSTMENTS.getD 2 0, false)) ∧
    (6 ≤ 7 ∧ Translator.attemptParams false 7 =
      (Config.TEMPERATURE_ADJUSTMENTS.getD 1 0, true)) :=
  ⟨⟨by decide, by decide,
    (claim_C8_escalation_schedule false 3).2.1 (by decide) (by decide)⟩,
   ⟨by decide, (claim_C8_escalation_schedule false 7).2.2.1 (by decide)⟩⟩

/-- **C2 (counterexample).** The cleanup pass does *not* hold
unconditionally: when a namespace's merged reference is empty,
`perform_cleanup_extra_keys` skips it (`if not source_dict: continue`), so
a store containing the key `"obsolete"` — absent from the (empty)
reference — is left untouched. -/
theorem claim_C2_counterexample :
    ("obsolete" : String) ∈ keysOf
      (TranslationFlow.perform_cleanup_extra_keys ["ns"] ["de_de"]
        (fun _ => []) (fun _ _ => [("obsolete", JValue.str "x")]) "ns" "de_de") ∧
    ("obsolete" : String) ∉ keysOf ((fun _ => ([] : KVMap)) "ns") := by
  constructor
  · decide
  · decide

/-- **C2 (amended).** After the cleanup pass, for every (namespace,
language) pair enumerated by the pass *whose merged reference mapping is
non-empty*, the persisted store contains no key absent from that
namespace's reference; this holds regardless of whether any translation
occurred in the run.  (Namespaces whose merged reference is empty are
skipped and their stores left unchanged.) -/
theorem claim_C2_amended (namespaces languages : List String)
    (reference : String → KVMap) (stores : String → String → KVMap)
    (ns lang : String) (hns : ns ∈ namespaces) (hl : lang ∈ languages)
    (href : reference ns ≠ []) :
    ∀ k ∈ keysOf (TranslationFlow.perform_cleanup_extra_keys namespaces languages
        reference stores ns lang), k ∈ keysOf (reference ns) := by
  intro k hk
  unfold TranslationFlow.perform_cleanup_extra_keys at hk
  rw [if_pos ⟨hns, hl⟩] at hk
  unfold TranslationFlow.cleanup_store at hk
  rw [if_neg href] at hk
  by_cases hs : stores ns lang = []
  · rw [if_pos hs, hs] at hk
    simp [keysOf] at hk
  · rw [if_neg hs] at hk
    simp only [keysOf, List.mem_toFinset, List.mem_map] at hk
    obtain ⟨e, he, hek⟩ := hk
    rw [List.mem_filter] at he
    have := of_decide_eq_true he.2
    rw [hek] at this
    simpa only [keysOf, List.mem_toFinset, List.mem_map] using this

/-- Witness for the amended C2: a store with the extra key `"obsolete"`
against the non-empty reference `{"a": "x"}` is swept clean. -/
theorem claim_C2_amended_witness :
    ("ns" : String) ∈ ["ns"] ∧ ("de_de" : String) ∈ ["de_de"] ∧
    ((fun _ => [(("a" : String), JValue.str "x")]) ("ns" : String) ≠ ([] : KVMap)) ∧
    (∀ k ∈ keysOf (TranslationFlow.perform_cleanup_extra_keys ["ns"] ["de_de"]
        (fun _ => [("a", JValue.str "x")])
        (fun _ _ => [("a", JValue.str "y"), ("obsolete", JValue.str "z")]) "ns" "de_de"),
      k ∈ keysOf ((fun _ => [(("a" : String), JValue.str "x")]) ("ns" : String))) :=
  ⟨by decide, by decide, by decide,
    claim_C2_amended ["ns"] ["de_de"] (fun _ => [("a", JValue.str "x")])
      (fun _ _ => [("a", JValue.str "y"), ("obsolete", JValue.str "z")]) "ns" "de_de"
      (by decide) (by decide) (by decide)⟩

/-- **C9.** An unparseable old snapshot does not abort the change detector:
it is treated exactly as the empty mapping, so every key of the new
snapshot is classified as added and the deleted and modified lists are
empty; likewise an unparseable new snapshot is treated as empty. -/
theorem claim_C9_parse_failure_treated_as_empty (new old : KVMap) :
    (GitChanges.get_file_key_changes none (some new) =
      GitChanges.get_file_key_changes (some []) (some new)) ∧
    ((GitChanges.get_file_key_changes none (some new)).added =
      new.map (fun e => ⟨e.1, none, some e.2, "added"⟩)) ∧
    ((GitChanges.get_file_key_changes none (some new)).deleted = []) ∧
    ((GitChanges.get_file_key_changes none (some new)).modified = []) ∧
    (GitChanges.get_file_key_changes (some old) none =
      GitChanges.get_file_key_changes (some old) (some [])) := by
  refine ⟨rfl, ?_, ?_, ?_, rfl⟩ <;>
  · unfold GitChanges.get_file_key_changes
    simp [GitChanges.applyRenameDetection, List.filter_eq_self]

namespace GitChanges

/-- `deleted_index[v] = some d` only for an actual deletion with value `v`. -/
theorem deletedIndexLookup_spec {deleted : List KeyChange} {v : String} {d : KeyChange}
    (h : deletedIndexLookup deleted v = some d) :
    d ∈ deleted ∧ d.old_value = some (.str v) := by
  unfold deletedIndexLookup at h
  have hmem : d ∈ deleted.filter (fun d => decide (d.old_value = some (JValue.str v))) := by
    obtain ⟨hne, hd⟩ := List.mem_getLast?_eq_getLast h
    rw [hd]
    exact List.getLast_mem hne
  rw [List.mem_filter] at hmem
  exact ⟨hmem.1, of_decide_eq_true hmem.2⟩

/-- An added entry whose value is never a uniquely-deleted string value
survives the rename loop. -/
theorem renameLoop_keeps_added (deleted : List KeyChange) :
    ∀ (added : List KeyChange) (used : List String) (a : KeyChange), a ∈ added →
      (∀ v, a.new_value = some (JValue.str v) → deletedValueCount deleted v ≠ 1) →
      a ∈ (renameLoop deleted added used).1 := by
  intro added
  induction added with
  | nil => intro used a ha _; exact absurd ha (List.not_mem_nil a)
  | cons b rest ih =>
    intro used a ha hv
    rcases List.mem_cons.mp ha with rfl | ha'
    · -- `a` is at the head: every reachable branch is the skip branch
      rw [renameLoop]
      rcases hnv : a.new_value with _ | jv
      · rcases hr : renameLoop deleted rest used with ⟨ar, u, nm⟩
        simp [hr]
      · cases jv with
        | str v =>
          dsimp only
          rw [if_neg (hv v hnv)]
          rcases hr : renameLoop deleted rest used with ⟨ar, u, nm⟩
          simp [hr]
        | arr vs =>
          rcases hr : renameLoop deleted rest used with ⟨ar, u, nm⟩
          simp [hr]
    · -- `a` is in the tail: every branch keeps the recursive remainder
      rw [renameLoop]
      rcases hnv : b.new_value with _ | jv
      · rcases hr : renameLoop deleted rest used with ⟨ar, u, nm⟩
        have := ih used a ha' hv
        rw [hr] at this
        simp [hr]
        exact Or.inr this
      · cases jv with
        | str v =>
          dsimp only
          by_cases hc : deletedValueCount deleted v = 1
          · rw [if_pos hc]
            rcases hd : deletedIndexLookup deleted v with _ | d
            · rcases hr : renameLoop deleted rest used with ⟨ar, u, nm⟩
              have := ih used a ha' hv
              rw [hr] at this
              simp [hr]
              exact Or.inr this
            · dsimp only
              by_cases hu : d.key ∉ used
              · rw [if_pos hu]
                rcases hr : renameLoop deleted rest (used ++ [d.key]) with ⟨ar, u, nm⟩
                have := ih (used ++ [d.key]) a ha' hv
                rw [hr] at this
                simp [hr]
                exact this
              · rw [if_neg hu]
                rcases hr : renameLoop deleted rest used with ⟨ar, u, nm⟩
                have := ih used a ha' hv
                rw [hr] at this
                simp [hr]
                exact Or.inr this
          · rw [if_neg hc]
            rcases hr : renameLoop deleted rest used with ⟨ar, u, nm⟩
            have := ih used a ha' hv
            rw [hr] at this
            simp [hr]
            exact Or.inr this
        | arr vs =>
          rcases hr : renameLoop deleted rest used with ⟨ar, u, nm⟩
          have := ih used a ha' hv
          rw [hr] at this
          simp [hr]
          exact Or.inr this

/-- Every key consumed by the rename loop belongs to a deletion whose value
is a string occurring in exactly one deletion, and every modification the
loop emits carries such a value. -/
theorem renameLoop_spec (deleted : List KeyChange) :
    ∀ (added : List KeyChange) (used : List String),
      (∀ k ∈ (renameLoop deleted added used).2.1, k ∈ used ∨
        ∃ d ∈ deleted, d.key = k ∧ ∃ v, d.old_value = some (JValue.str v) ∧
          deletedValueCount deleted v = 1) ∧
      (∀ m ∈ (renameLoop deleted added used).2.2, ∃ v,
        m.new_value = some (JValue.str v) ∧ deletedValueCount deleted v = 1) := by
  intro added
  induction added with
  | nil =>
    intro used
    constructor
    · intro k hk
      rw [renameLoop] at hk
      exact Or.inl hk
    · intro m hm
      rw [renameLoop] at hm
      exact absurd hm (List.not_mem_nil m)
  | cons b rest ih =>
    intro used
    rw [renameLoop]
    rcases hnv : b.new_value with _ | jv
    · rcases hr : renameLoop deleted rest used with ⟨ar, u, nm⟩
      have := ih used
      rw [hr] at this
      simpa [hr] using this
    · cases jv with
      | str v =>
        dsimp only
        by_cases hc : deletedValueCount deleted v = 1
        · rw [if_pos hc]
          rcases hd : deletedIndexLookup deleted v with _ | d
          · rcases hr : renameLoop deleted rest used with ⟨ar, u, nm⟩
            have := ih used
            rw [hr] at this
            simpa [hr] using this
          · dsimp only
            by_cases hu : d.key ∉ used
            · rw [if_pos hu]
              rcases hr : renameLoop deleted rest (used ++ [d.key]) with ⟨ar, u, nm⟩
              have hih := ih (used ++ [d.key])
              rw [hr] at hih
              obtain ⟨hd_mem, hd_val⟩ := deletedIndexLookup_spec hd
              constructor
              · intro k hk
                rcases hih.1 k hk with hk' | hk'
                · rcases List.mem_append.mp hk' with hk'' | hk''
                  · exact Or.inl hk''
                  · right
                    refine ⟨d, hd_mem, (List.mem_singleton.mp hk'').symm, v, hd_val, hc⟩
                · exact Or.inr hk'
              · intro m hm
                rcases List.mem_cons.mp hm with rfl | hm'
                · exact ⟨v, rfl, hc⟩
                · exact hih.2 m hm'
            · rw [if_neg hu]
              rcases hr : renameLoop deleted rest used with ⟨ar, u, nm⟩
              have := ih used
              rw [hr] at this
              simpa [hr] using this
        · rw [if_neg hc]
          rcases hr : renameLoop deleted rest used with ⟨ar, u, nm⟩
          have := ih used
          rw [hr] at this
          simpa [hr] using this
      | arr vs =>
        rcases hr : renameLoop deleted rest used with ⟨ar, u, nm⟩
        have := ih used
        rw [hr] at this
        simpa [hr] using this

end GitChanges

namespace GitChanges

/-- An added entry with no uniquely-deleted string value survives
`applyRenameDetection`. -/
theorem applyRename_added_mem (added deleted modified : List KeyChange) (a : KeyChange)
    (ha : a ∈ added)
    (hv : ∀ v, a.new_value = some (JValue.str v) → deletedValueCount deleted v ≠ 1) :
    a ∈ (applyRenameDetection added deleted modified).1 := by
  unfold applyRenameDetection
  by_cases hg : added = [] ∨ deleted = []
  · rw [if_pos hg]
    exact ha
  · rw [if_neg hg]
    rcases hr : renameLoop deleted added [] with ⟨ar, u, nm⟩
    have := renameLoop_keeps_added deleted added [] a ha hv
    rw [hr] at this
    simpa [hr] using this

/-- A deleted entry with no uniquely-occurring string value survives
`applyRenameDetection` (its key is never consumed by a rename). -/
theorem applyRename_deleted_mem (added deleted modified : List KeyChange) (d : KeyChange)
    (hnd : (deleted.map KeyChange.key).Nodup) (hd : d ∈ deleted)
    (hv : ∀ v, d.old_value = some (JValue.str v) → deletedValueCount deleted v ≠ 1) :
    d ∈ (applyRenameDetection added deleted modified).2.1 := by
  unfold applyRenameDetection
  by_cases hg : added = [] ∨ deleted = []
  · rw [if_pos hg]
    exact hd
  · rw [if_neg hg]
    rcases hr : renameLoop deleted added [] with ⟨ar, u, nm⟩
    have hspec := (renameLoop_spec deleted added []).1
    rw [hr] at hspec
    have hku : d.key ∉ u := by
      intro habs
      rcases hspec d.key habs with hin | ⟨d', hd'_mem, hd'_key, v', hd'_val, hcount⟩
      · exact absurd hin (List.not_mem_nil d.key)
      · have : d' = d :=
          List.inj_on_of_nodup_map hnd hd'_mem hd hd'_key
        rw [this] at hd'_val
        exact hv v' hd'_val hcount
    simp only [hr]
    exact List.mem_filter.mpr ⟨hd, decide_eq_true hku⟩

/-- Any modification emitted by `applyRenameDetection` beyond the input
ones carries a uniquely-deleted string value. -/
theorem applyRename_mods (added deleted modified : List KeyChange) (v : String)
    (hc : deletedValueCount deleted v ≠ 1) :
    ∀ m ∈ (applyRenameDetection added deleted modified).2.2,
      m ∈ modified ∨ m.new_value ≠ some (JValue.str v) := by
  unfold applyRenameDetection
  by_cases hg : added = [] ∨ deleted = []
  · rw [if_pos hg]
    exact fun m hm => Or.inl hm
  · rw [if_neg hg]
    rcases hr : renameLoop deleted added [] with ⟨ar, u, nm⟩
    have hspec := (renameLoop_spec deleted added []).2
    rw [hr] at hspec
    simp only [hr]
    intro m hm
    rcases List.mem_append.mp hm with hm' | hm'
    · exact Or.inl hm'
    · obtain ⟨v', hval, hcount⟩ := hspec m hm'
      right
      intro habs
      rw [habs] at hval
      have : v = v' := by
        injection hval with hval'
        injection hval'
      rw [← this] at hcount
      exact hc hcount

end GitChanges

/-- **C5.** Rename detection: given old `{"a": "Hello"}` and new
`{"b": "Hello"}`, the change detector emits exactly one modified entry
(key `"b"`, old value `"Hello"`, new value `"Hello"`) and empty added and
deleted lists; and whenever a deleted value occurs in a number of deletions
other than exactly one — in particular in more than one — or is not a
string, no rename is inferred for the added and deleted entries carrying
that value: they are kept as independent additions and deletions, and no
new modification with that value is emitted. -/
theorem claim_C5_rename_detection :
    (GitChanges.get_file_key_changes (some [("a", JValue.str "Hello")])
        (some [("b", JValue.str "Hello")]) =
      ⟨[], [], [⟨"b", some (JValue.str "Hello"), some (JValue.str "Hello"), "modified"⟩]⟩) ∧
    (∀ (added deleted modified : List GitChanges.KeyChange) (v : String),
      (deleted.map GitChanges.KeyChange.key).Nodup →
      GitChanges.deletedValueCount deleted v ≠ 1 →
      ((∀ a ∈ added, a.new_value = some (JValue.str v) →
          a ∈ (GitChanges.applyRenameDetection added deleted modified).1) ∧
       (∀ d ∈ deleted, d.old_value = some (JValue.str v) →
          d ∈ (GitChanges.applyRenameDetection added deleted modified).2.1) ∧
       (∀ m ∈ (GitChanges.applyRenameDetection added deleted modified).2.2,
          m ∈ modified ∨ m.new_value ≠ some (JValue.str v)))) ∧
    (∀ (added deleted modified : List GitChanges.KeyChange),
      (deleted.map GitChanges.KeyChange.key).Nodup →
      ((∀ a ∈ added, (∀ s, a.new_value ≠ some (JValue.str s)) →
          a ∈ (GitChanges.applyRenameDetection added deleted modified).1) ∧
       (∀ d ∈ deleted, (∀ s, d.old_value ≠ some (JValue.str s)) →
          d ∈ (GitChanges.applyRenameDetection added deleted modified).2.1))) := by
  refine ⟨by decide, ?_, ?_⟩
  · intro added deleted modified v hnd hc
    refine ⟨?_, ?_, ?_⟩
    · intro a ha hav
      refine GitChanges.applyRename_added_mem added deleted modified a ha ?_
      intro v' hv'
      rw [hav] at hv'
      have : v = v' := by
        injection hv' with h1
        injection h1
      rwa [← this]
    · intro d hd hdv
      refine GitChanges.applyRename_deleted_mem added deleted modified d hnd hd ?_
      intro v' hv'
      rw [hdv] at hv'
      have : v = v' := by
        injection hv' with h1
        injection h1
      rwa [← this]
    · exact GitChanges.applyRename_mods added deleted modified v hc
  · intro added deleted modified hnd
    constructor
    · intro a ha hns
      exact GitChanges.applyRename_added_mem added deleted modified a ha
        (fun v hv => absurd hv (hns v))
    · intro d hd hns
      exact GitChanges.applyRename_deleted_mem added deleted modified d hnd hd
        (fun v hv => absurd hv (hns v))

/-- Witness for C5: a value `"Hi"` deleted twice is never merged — both
added keys carrying it stay additions, both deletions stay deletions. -/
theorem claim_C5_rename_detection_witness :
    (([⟨"a", some (JValue.str "Hi"), none, "deleted"⟩,
       ⟨"b", some (JValue.str "Hi"), none, "deleted"⟩] :
        List GitChanges.KeyChange).map GitChanges.KeyChange.key).Nodup ∧
    GitChanges.deletedValueCount
      [⟨"a", some (JValue.str "Hi"), none, "deleted"⟩,
       ⟨"b", some (JValue.str "Hi"), none, "deleted"⟩] "Hi" ≠ 1 ∧
    (∀ a ∈ ([⟨"x", none, some (JValue.str "Hi"), "added"⟩] : List GitChanges.KeyChange),
      a.new_value = some (JValue.str "Hi") →
      a ∈ (GitChanges.applyRenameDetection
        [⟨"x", none, some (JValue.str "Hi"), "added"⟩]
        [⟨"a", some (JValue.str "Hi"), none, "deleted"⟩,
         ⟨"b", some (JValue.str "Hi"), none, "deleted"⟩] []).1) :=
  ⟨by decide, by decide,
    ((claim_C5_rename_detection.2.1
      [⟨"x", none, some (JValue.str "Hi"), "added"⟩]
      [⟨"a", some (JValue.str "Hi"), none, "deleted"⟩,
       ⟨"b", some (JValue.str "Hi"), none, "deleted"⟩] [] "Hi"
      (by decide) (by decide)).1)⟩

namespace FileOps

theorem indexOf?_of_get? {l : List String} {k : String} :
    ∀ {i : Nat}, l.Nodup → l.get? i = some k → l.indexOf? k = some i := by
  induction l with
  | nil => intro i _ hg; simp at hg
  | cons x xs ih =>
    intro i hnd hg
    rcases List.nodup_cons.mp hnd with ⟨hx, hxs⟩
    cases i with
    | zero =>
      simp only [List.get?] at hg
      injection hg with hg
      rw [List.indexOf?_cons, if_pos (by simp [hg])]
    | succ j =>
      simp only [List.get?] at hg
      have hk : k ∈ xs := List.get?_mem hg
      have hne : ¬(x == k) = true := by
        simp only [beq_iff_eq]
        intro he
        rw [he] at hx
        exact hx hk
      rw [List.indexOf?_cons, if_neg hne, ih hxs hg]
      rfl

theorem buildUnique_go (result_keys : List String) :
    ∀ (l : List String) (acc : List String), l.Nodup → (∀ k ∈ l, k ∉ acc) →
      l.foldl (fun acc k => if k ∈ result_keys ∧ k ∉ acc then acc ++ [k] else acc) acc =
        acc ++ l.filter (fun k => decide (k ∈ result_keys)) := by
  intro l
  induction l with
  | nil => intro acc _ _; simp
  | cons x xs ih =>
    intro acc hnd hacc
    rcases List.nodup_cons.mp hnd with ⟨hxxs, hxs⟩
    by_cases hx : x ∈ result_keys
    · have hxa : x ∉ acc := hacc x (List.mem_cons_self x xs)
      rw [List.foldl_cons, if_pos ⟨hx, hxa⟩]
      rw [ih (acc ++ [x]) hxs ?fresh]
      · simp [hx]
      case fresh =>
        intro k hk
        simp only [List.mem_append, List.mem_singleton]
        rintro (hka | rfl)
        · exact hacc k (List.mem_cons_of_mem x hk) hka
        · exact hxxs hk
    · rw [List.foldl_cons, if_neg (by tauto)]
      rw [ih acc hxs (fun k hk => hacc k (List.mem_cons_of_mem x hk))]
      simp [hx]

/-- On duplicate-free key lists the deduplication pass is a filter. -/
theorem buildUnique_eq_filter (source_keys result_keys : List String)
    (hnd : source_keys.Nodup) :
    buildUnique source_keys result_keys =
      source_keys.filter (fun k => decide (k ∈ result_keys)) := by
  unfold buildUnique
  simpa using buildUnique_go result_keys source_keys [] hnd (by simp)

end FileOps

namespace FileOps

/-- Filtering a duplicate-free list by membership in one of its contiguous
segments yields exactly that segment. -/
theorem filter_mem_segment (l : List String) (hl : l.Nodup) (s n : Nat) :
    l.filter (fun k => decide (k ∈ (l.drop s).take n)) = (l.drop s).take n := by
  obtain ⟨seg, hseg⟩ : ∃ seg, (l.drop s).take n = seg := ⟨_, rfl⟩
  rw [hseg]
  have hsplit : l = l.take s ++ (seg ++ l.drop (s + n)) := by
    rw [← hseg]
    rw [← List.drop_drop]
    rw [List.take_append_drop, List.take_append_drop]
  have hnd : (l.take s ++ (seg ++ l.drop (s + n))).Nodup := hsplit ▸ hl
  rcases List.nodup_append.mp hnd with ⟨_, hnd2, hdis1⟩
  rcases List.nodup_append.mp hnd2 with ⟨_, _, hdis2⟩
  conv_lhs => rw [hsplit]
  rw [List.filter_append, List.filter_append]
  rw [List.filter_eq_nil.mpr ?left, List.filter_eq_self.mpr ?mid,
    List.filter_eq_nil.mpr ?right]
  · simp
  case left =>
    intro a ha
    simp only [decide_eq_true_eq]
    intro haseg
    exact hdis1 ha (List.mem_append_left _ haseg)
  case mid =>
    intro a ha
    simpa using ha
  case right =>
    intro a ha
    simp only [decide_eq_true_eq]
    intro haseg
    exact hdis2 haseg ha

/-- In a dictionary with duplicate-free keys, `lookup` of a member entry's
key returns that entry's value. -/
theorem lookup_of_mem :
    ∀ {m : KVMap}, (m.map Prod.fst).Nodup → ∀ {e : String × JValue}, e ∈ m →
      m.lookup e.1 = some e.2 := by
  intro m
  induction m with
  | nil => intro _ e he; exact absurd he (List.not_mem_nil e)
  | cons h tl ih =>
    intro hnd e he
    rcases List.nodup_cons.mp hnd with ⟨hh, htl⟩
    rcases List.mem_cons.mp he with rfl | he'
    · rcases e with ⟨k, v⟩
      simp [List.lookup]
    · rcases h with ⟨hk, hv⟩
      have hne : e.1 ≠ hk := by
        intro habs
        apply hh
        rw [← habs]
        exact List.mem_map.mpr ⟨e, he', rfl⟩
      have hbeq : (e.1 == hk) = false := beq_eq_false_iff_ne.mpr hne
      simp only [List.lookup, hbeq]
      exact ih htl he'

end FileOps

/-- **C6.** Context window builder with budget 10: with `force_context`, or
when the reference holds at most 10 keys, the result is the whole reference
plus the core-keys marker equal to the target list; otherwise, for a single
target key at an interior position `i` (at least 5 keys on each side) of a
reference with more than 10 keys, the result is exactly the 11 consecutive
reference entries centred on the target — the 5 preceding keys, the
target, and the 5 following keys, in reference order — with the core-keys
marker equal to the original target list. -/
theorem claim_C6_context_window :
    (∀ (source : KVMap) (targets : List String),
      FileOps.get_context_for_keys source targets 10 true = (source, targets)) ∧
    (∀ (source : KVMap) (targets : List String),
      source.length ≤ 10 →
      FileOps.get_context_for_keys source targets 10 false = (source, targets)) ∧
    (∀ (source : KVMap) (k : String) (i : Nat),
      (source.map Prod.fst).Nodup →
      10 < source.length →
      (source.map Prod.fst).get? i = some k →
      5 ≤ i → i + 5 < source.length →
      FileOps.get_context_for_keys source [k] 10 false =
        ((source.drop (i - 5)).take 11, [k])) := by
  refine ⟨fun source targets => rfl, ?_, ?_⟩
  · intro source targets hlen
    unfold FileOps.get_context_for_keys
    rw [if_neg (by simp), if_pos (by simpa using hlen)]
  · intro source k i hnd hlen hget h5 hi5
    unfold FileOps.get_context_for_keys
    rw [if_neg (by simp), if_neg (by simpa using hlen)]
    dsimp only
    have hsklen : (source.map Prod.fst).length = source.length := List.length_map _ _
    have hidx : (source.map Prod.fst).indexOf? k = some i :=
      FileOps.indexOf?_of_get? hnd hget
    have hwin : FileOps.contextWindow (source.map Prod.fst) k 10 =
        ((source.map Prod.fst).drop (i - 5)).take 5 ++
          ((source.map Prod.fst).drop (i + 1)).take 5 := by
      unfold FileOps.contextWindow
      rw [hidx]
      dsimp only
      have h1 : i - 10 / 2 = i - 5 := by norm_num
      have h2 : i - (i - 5) = 5 := by omega
      have h3 : min (source.map Prod.fst).length (i + 10 / 2 + 1) = i + 6 := by
        rw [hsklen]; omega
      have h4 : i + 6 - (i + 1) = 5 := by omega
      rw [h1, h2, h3, h4]
    have hresult_keys : [k] ++ List.flatMap [k] (fun t =>
        FileOps.contextWindow (source.map Prod.fst) t 10) =
        k :: (((source.map Prod.fst).drop (i - 5)).take 5 ++
          ((source.map Prod.fst).drop (i + 1)).take 5) := by
      simp [hwin]
    have hilt : i < (source.map Prod.fst).length := by rw [hsklen]; omega
    have hgeti : (source.map Prod.fst)[i] = k := by
      obtain ⟨h', hv⟩ := List.get?_eq_some.mp hget
      exact hv
    have hsegdec : ((source.map Prod.fst).drop (i - 5)).take 11 =
        ((source.map Prod.fst).drop (i - 5)).take 5 ++
          k :: ((source.map Prod.fst).drop (i + 1)).take 5 := by
      have h11 : (11 : Nat) = 5 + 6 := rfl
      rw [h11, List.take_add]
      congr 1
      rw [List.drop_drop]
      have : i - 5 + 5 = i := by omega
      rw [this]
      rw [List.drop_eq_getElem_cons hilt, hgeti]
      rfl
    have hmemiff : ∀ x, (x ∈ [k] ++ List.flatMap [k] (fun t =>
        FileOps.contextWindow (source.map Prod.fst) t 10)) ↔
        x ∈ ((source.map Prod.fst).drop (i - 5)).take 11 := by
      intro x
      rw [hresult_keys, hsegdec]
      simp only [List.mem_cons, List.mem_append]
      tauto
    rw [FileOps.buildUnique_eq_filter _ _ hnd]
    have hfc : (source.map Prod.fst).filter (fun x => decide (x ∈ [k] ++
        List.flatMap [k] (fun t => FileOps.contextWindow (source.map Prod.fst) t 10))) =
        (source.map Prod.fst).filter (fun x =>
          decide (x ∈ ((source.map Prod.fst).drop (i - 5)).take 11)) := by
      apply List.filter_congr
      intro x _
      simp only [decide_eq_decide]
      exact hmemiff x
    rw [hfc, FileOps.filter_mem_segment _ hnd]
    have hsegmap : ((source.map Prod.fst).drop (i - 5)).take 11 =
        ((source.drop (i - 5)).take 11).map Prod.fst := by
      rw [List.map_take, List.map_drop]
    rw [hsegmap, List.map_map]
    have hentries : ((source.drop (i - 5)).take 11).map
        ((fun kk => (kk, (source.lookup kk).getD (.str ""))) ∘ Prod.fst) =
        ((source.drop (i - 5)).take 11).map id := by
      apply List.map_congr_left
      intro e he
      have hesrc : e ∈ source :=
        List.mem_of_mem_drop (List.mem_of_mem_take he)
      have := FileOps.lookup_of_mem hnd hesrc
      simp [Function.comp, this]
    rw [hentries, List.map_id]

/-- Witness for C6: an 11-key reference with the target at position 5
yields exactly the full reference window (5 before, target, 5 after). -/
theorem claim_C6_context_window_witness :
    (([("k00", JValue.str "v"), ("k01", JValue.str "v"), ("k02", JValue.str "v"), ("k03", JValue.str "v"), ("k04", JValue.str "v"), ("k05", JValue.str "v"), ("k06", JValue.str "v"), ("k07", JValue.str "v"), ("k08", JValue.str "v"), ("k09", JValue.str "v"), ("k10", JValue.str "v")] : KVMap).map Prod.fst).Nodup ∧
    10 < ([("k00", JValue.str "v"), ("k01", JValue.str "v"), ("k02", JValue.str "v"), ("k03", JValue.str "v"), ("k04", JValue.str "v"), ("k05", JValue.str "v"), ("k06", JValue.str "v"), ("k07", JValue.str "v"), ("k08", JValue.str "v"), ("k09", JValue.str "v"), ("k10", JValue.str "v")] : KVMap).length ∧
    (([("k00", JValue.str "v"), ("k01", JValue.str "v"), ("k02", JValue.str "v"), ("k03", JValue.str "v"), ("k04", JValue.str "v"), ("k05", JValue.str "v"), ("k06", JValue.str "v"), ("k07", JValue.str "v"), ("k08", JValue.str "v"), ("k09", JValue.str "v"), ("k10", JValue.str "v")] : KVMap).map Prod.fst).get? 5 = some "k05" ∧
    5 ≤ 5 ∧ 5 + 5 < ([("k00", JValue.str "v"), ("k01", JValue.str "v"), ("k02", JValue.str "v"), ("k03", JValue.str "v"), ("k04", JValue.str "v"), ("k05", JValue.str "v"), ("k06", JValue.str "v"), ("k07", JValue.str "v"), ("k08", JValue.str "v"), ("k09", JValue.str "v"), ("k10", JValue.str "v")] : KVMap).length ∧
    FileOps.get_context_for_keys [("k00", JValue.str "v"), ("k01", JValue.str "v"), ("k02", JValue.str "v"), ("k03", JValue.str "v"), ("k04", JValue.str "v"), ("k05", JValue.str "v"), ("k06", JValue.str "v"), ("k07", JValue.str "v"), ("k08", JValue.str "v"), ("k09", JValue.str "v"), ("k10", JValue.str "v")] ["k05"] 10 false =
      ((([("k00", JValue.str "v"), ("k01", JValue.str "v"), ("k02", JValue.str "v"), ("k03", JValue.str "v"), ("k04", JValue.str "v"), ("k05", JValue.str "v"), ("k06", JValue.str "v"), ("k07", JValue.str "v"), ("k08", JValue.str "v"), ("k09", JValue.str "v"), ("k10", JValue.str "v")] : KVMap).drop (5 - 5)).take 11, ["k05"]) :=
  ⟨by decide, by decide, by decide, by decide, by decide,
    claim_C6_context_window.2.2 [("k00", JValue.str "v"), ("k01", JValue.str "v"), ("k02", JValue.str "v"), ("k03", JValue.str "v"), ("k04", JValue.str "v"), ("k05", JValue.str "v"), ("k06", JValue.str "v"), ("k07", JValue.str "v"), ("k08", JValue.str "v"), ("k09", JValue.str "v"), ("k10", JValue.str "v")] "k05" 5
      (by decide) (by decide) (by decide) (by decide) (by decide)⟩

namespace Translator

/-- Bounds for the chunk count of `range(0, total, batch_size)`. -/
theorem numChunks_bounds (total bs : Nat) (hbs : 0 < bs) :
    total ≤ numChunks total bs * bs ∧
      (0 < total → (numChunks total bs - 1) * bs < total) := by
  unfold numChunks
  have h1 : bs * ((total + bs - 1) / bs) + (total + bs - 1) % bs = total + bs - 1 :=
    Nat.div_add_mod _ _
  have hmod : (total + bs - 1) % bs < bs := Nat.mod_lt _ hbs
  have hcomm : (total + bs - 1) / bs * bs = bs * ((total + bs - 1) / bs) :=
    Nat.mul_comm _ _
  constructor
  · rw [hcomm]
    omega
  · intro hpos
    have hq1 : 1 ≤ (total + bs - 1) / bs := by
      apply (Nat.one_le_div_iff hbs).mpr
      omega
    have he : ((total + bs - 1) / bs - 1) * bs = bs * ((total + bs - 1) / bs) - bs := by
      rw [Nat.sub_mul, one_mul, Nat.mul_comm]
    rw [he]
    omega

/-- Concatenating the consecutive `batch_size`-chunks of a list
reconstructs the list. -/
theorem chunks_join {α : Type} (bs : Nat) :
    ∀ (n : Nat) (l : List α), l.length ≤ n * bs →
      ((List.range n).map (fun j => (l.drop (j * bs)).take bs)).flatten = l := by
  intro n
  induction n with
  | zero =>
    intro l hl
    have : l = [] := List.eq_nil_of_length_eq_zero (by omega)
    simp [this]
  | succ m ih =>
    intro l hl
    rw [List.range_succ_eq_map]
    rw [List.map_cons, List.map_map, List.flatten_cons]
    have hhead : (l.drop (0 * bs)).take bs = l.take bs := by simp
    have htail : ((List.range m).map ((fun j => (l.drop (j * bs)).take bs) ∘ Nat.succ)) =
        (List.range m).map (fun j => ((l.drop bs).drop (j * bs)).take bs) := by
      apply List.map_congr_left
      intro j _
      show (l.drop (Nat.succ j * bs)).take bs = ((l.drop bs).drop (j * bs)).take bs
      rw [List.drop_drop, Nat.succ_mul, Nat.add_comm]
    rw [hhead, htail]
    rw [ih (l.drop bs) ?hlen]
    · exact List.take_append_drop bs l
    case hlen =>
      rw [List.length_drop]
      have : (m + 1) * bs = m * bs + bs := by rw [Nat.add_mul, one_mul]
      omega

end Translator

namespace Translator

theorem mkBatch_core_keys (items : KVMap) (bs cs i : Nat) :
    (mkBatch items bs cs i).core_keys = some (((items.drop i).take bs).map Prod.fst) := rfl

theorem mkBatch_entries_first (items : KVMap) (bs cs : Nat) (h : bs < items.length) :
    (mkBatch items bs cs 0).entries = items.take bs ++ (items.drop bs).take cs := by
  unfold mkBatch
  dsimp only
  rw [if_pos rfl]
  rw [Nat.zero_add, Nat.min_eq_left (Nat.le_of_lt h), List.drop_zero]

theorem mkBatch_entries_last (items : KVMap) (bs cs i : Nat) (h0 : i ≠ 0)
    (hend : items.length ≤ i + bs) :
    (mkBatch items bs cs i).entries =
      (items.drop i).take bs ++ (items.drop (i - cs)).take (i - (i - cs)) := by
  unfold mkBatch
  dsimp only
  rw [if_neg h0, if_pos hend]

theorem mkBatch_entries_interior (items : KVMap) (bs cs i : Nat) (h0 : i ≠ 0)
    (hend : i + bs < items.length) :
    (mkBatch items bs cs i).entries =
      (items.drop i).take bs ++
        ((items.drop (i - cs / 2)).take (i - (i - cs / 2)) ++
          (items.drop (i + bs)).take (cs / 2)) := by
  unfold mkBatch
  dsimp only
  rw [if_neg h0, if_neg (by omega), Nat.min_eq_left (Nat.le_of_lt hend)]

end Translator

/-- **C7.** Batch scheduler: a mapping with at most `batch_size` keys is
returned as a single batch equal to the original mapping (no marker);
otherwise the mapping is partitioned into consecutive chunks of at most
`batch_size` entries, every batch carries a core-keys marker equal to its
own chunk's keys, these cores are pairwise disjoint with concatenation
(hence union) equal to the original key sequence, the first chunk gets only
trailing context (next `context_size` items), the last chunk only leading
context (previous `context_size` items), and interior chunks get
`context_size/2` items on each side (all clipped at the edges). -/
theorem claim_C7_batch_scheduler (texts : KVMap) (bs cs : Nat) (hbs : 0 < bs)
    (hnd : (texts.map Prod.fst).Nodup) :
    (texts ≠ [] → texts.length ≤ bs →
      Translator.split_texts_with_context_guarantee texts bs cs = [⟨texts, none⟩]) ∧
    (bs < texts.length →
      (((Translator.split_texts_with_context_guarantee texts bs cs).map
          (fun b => b.core_keys.getD [])).flatten = texts.map Prod.fst) ∧
      (((Translator.split_texts_with_context_guarantee texts bs cs).map
          (fun b => b.core_keys.getD [])).Pairwise List.Disjoint) ∧
      (∀ b ∈ Translator.split_texts_with_context_guarantee texts bs cs,
        b.core_keys ≠ none) ∧
      ((Translator.split_texts_with_context_guarantee texts bs cs).get? 0 =
        some ⟨texts.take bs ++ (texts.drop bs).take cs,
          some ((texts.take bs).map Prod.fst)⟩) ∧
      (∀ j, 0 < j → j + 1 = Translator.numChunks texts.length bs →
        (Translator.split_texts_with_context_guarantee texts bs cs).get? j =
          some ⟨(texts.drop (j * bs)).take bs ++
              (texts.drop (j * bs - cs)).take (j * bs - (j * bs - cs)),
            some (((texts.drop (j * bs)).take bs).map Prod.fst)⟩) ∧
      (∀ j, 0 < j → j + 1 < Translator.numChunks texts.length bs →
        (Translator.split_texts_with_context_guarantee texts bs cs).get? j =
          some ⟨(texts.drop (j * bs)).take bs ++
              ((texts.drop (j * bs - cs / 2)).take (j * bs - (j * bs - cs / 2)) ++
                (texts.drop (j * bs + bs)).take (cs / 2)),
            some (((texts.drop (j * bs)).take bs).map Prod.fst)⟩)) := by
  constructor
  · intro hne hle
    unfold Translator.split_texts_with_context_guarantee
    rw [if_neg hne, if_pos hle]
  · intro hgt
    have hne : texts ≠ [] := by
      intro he
      rw [he] at hgt
      simp at hgt
    have hsplit : Translator.split_texts_with_context_guarantee texts bs cs =
        (List.range (Translator.numChunks texts.length bs)).map
          (fun j => Translator.mkBatch texts bs cs (j * bs)) := by
      unfold Translator.split_texts_with_context_guarantee
      rw [if_neg hne, if_neg (by omega)]
    have hbounds := Translator.numChunks_bounds texts.length bs hbs
    have hn1 : 1 ≤ Translator.numChunks texts.length bs := by
      by_contra hc
      have : Translator.numChunks texts.length bs = 0 := by omega
      rw [this] at hbounds
      omega
    have hcores : (Translator.split_texts_with_context_guarantee texts bs cs).map
        (fun b => b.core_keys.getD []) =
        (List.range (Translator.numChunks texts.length bs)).map
          (fun j => ((texts.map Prod.fst).drop (j * bs)).take bs) := by
      rw [hsplit, List.map_map]
      apply List.map_congr_left
      intro j _
      show (Translator.mkBatch texts bs cs (j * bs)).core_keys.getD [] = _
      rw [Translator.mkBatch_core_keys]
      rw [Option.getD_some, List.map_take, List.map_drop]
    have hflat : (((Translator.split_texts_with_context_guarantee texts bs cs).map
        (fun b => b.core_keys.getD [])).flatten = texts.map Prod.fst) := by
      rw [hcores]
      apply Translator.chunks_join
      rw [List.length_map]
      exact hbounds.1
    refine ⟨hflat, ?_, ?_, ?_, ?_, ?_⟩
    · have hndf : ((Translator.split_texts_with_context_guarantee texts bs cs).map
          (fun b => b.core_keys.getD [])).flatten.Nodup := by
        rw [hflat]
        exact hnd
      exact (List.nodup_flatten.mp hndf).2
    · intro b hb
      rw [hsplit] at hb
      obtain ⟨j, _, hj⟩ := List.mem_map.mp hb
      rw [← hj, Translator.mkBatch_core_keys]
      simp
    · rw [hsplit, List.get?_map, List.get?_range (by omega)]
      dsimp only [Option.map]
      congr 1
      have he := Translator.mkBatch_entries_first texts bs cs hgt
      have hc := Translator.mkBatch_core_keys texts bs cs (0 * bs)
      rw [Nat.zero_mul] at *
      rcases hmk : Translator.mkBatch texts bs cs 0 with ⟨ents, cks⟩
      rw [hmk] at he hc
      dsimp at he hc
      rw [he, hc]
    · intro j hj0 hjlast
      rw [hsplit, List.get?_map, List.get?_range (by omega)]
      dsimp only [Option.map]
      congr 1
      have h0 : j * bs ≠ 0 := by
        intro he
        rcases Nat.mul_eq_zero.mp he with h | h <;> omega
      have hend : texts.length ≤ j * bs + bs := by
        have : j * bs + bs = (j + 1) * bs := by rw [Nat.add_mul, one_mul]
        rw [this, hjlast]
        exact hbounds.1
      have he := Translator.mkBatch_entries_last texts bs cs (j * bs) h0 hend
      have hc := Translator.mkBatch_core_keys texts bs cs (j * bs)
      rcases hmk : Translator.mkBatch texts bs cs (j * bs) with ⟨ents, cks⟩
      rw [hmk] at he hc
      dsimp at he hc
      rw [he, hc]
    · intro j hj0 hjint
      rw [hsplit, List.get?_map, List.get?_range (by omega)]
      dsimp only [Option.map]
      congr 1
      have h0 : j * bs ≠ 0 := by
        intro he
        rcases Nat.mul_eq_zero.mp he with h | h <;> omega
      have hend : j * bs + bs < texts.length := by
        have h1 : j * bs + bs = (j + 1) * bs := by rw [Nat.add_mul, one_mul]
        have h2 : (j + 1) * bs ≤ (Translator.numChunks texts.length bs - 1) * bs :=
          Nat.mul_le_mul_right bs (by omega)
        have h3 := hbounds.2 (by omega)
        omega
      have he := Translator.mkBatch_entries_interior texts bs cs (j * bs) h0 hend
      have hc := Translator.mkBatch_core_keys texts bs cs (j * bs)
      rcases hmk : Translator.mkBatch texts bs cs (j * bs) with ⟨ents, cks⟩
      rw [hmk] at he hc
      dsimp at he hc
      rw [he, hc]

/-- Witness for C7: five entries with batch size 2 split into three chunks
whose cores concatenate back to the original key sequence. -/
theorem claim_C7_batch_scheduler_witness :
    (0 : Nat) < 2 ∧
    (([("a", JValue.str "1"), ("b", JValue.str "2"), ("c", JValue.str "3"), ("d", JValue.str "4"), ("e", JValue.str "5")] : KVMap).map Prod.fst).Nodup ∧
    2 < ([("a", JValue.str "1"), ("b", JValue.str "2"), ("c", JValue.str "3"), ("d", JValue.str "4"), ("e", JValue.str "5")] : KVMap).length ∧
    (((Translator.split_texts_with_context_guarantee [("a", JValue.str "1"), ("b", JValue.str "2"), ("c", JValue.str "3"), ("d", JValue.str "4"), ("e", JValue.str "5")] 2 2).map
        (fun b => b.core_keys.getD [])).flatten = ([("a", JValue.str "1"), ("b", JValue.str "2"), ("c", JValue.str "3"), ("d", JValue.str "4"), ("e", JValue.str "5")] : KVMap).map Prod.fst) :=
  ⟨by decide, by decide, by decide,
    ((claim_C7_batch_scheduler [("a", JValue.str "1"), ("b", JValue.str "2"), ("c", JValue.str "3"), ("d", JValue.str "4"), ("e", JValue.str "5")] 2 2 (by decide) (by decide)).2 (by decide)).1⟩

namespace Translator

/-- Stripping the marker key is, at the key-set level, `erase`. -/
theorem keysOf_strip_marker (texts : KVMap) :
    keysOf (texts.filter (fun e => decide (e.1 ≠ CORE_KEYS_MARKER))) =
      (keysOf texts).erase CORE_KEYS_MARKER := by
  ext k
  simp only [keysOf, List.mem_toFinset, List.mem_map, Finset.mem_erase, List.mem_filter,
    decide_eq_true_eq]
  constructor
  · rintro ⟨e, ⟨he, hne⟩, rfl⟩
    exact ⟨hne, e, he, rfl⟩
  · rintro ⟨hne, e, he, rfl⟩
    exact ⟨e, ⟨he, hne⟩, rfl⟩

/-- A non-empty successful `translate_batch` result passed validation, so
its key set is the payload's key set minus the marker key. -/
theorem translate_batch_ok_keys (parse : List Char → Option KVMap) (texts : KVMap)
    (resp : ApiResponse) (r : KVMap) (hok : translate_batch parse texts resp = .ok r)
    (hne : r ≠ []) :
    keysOf r = (keysOf texts).erase CORE_KEYS_MARKER := by
  unfold translate_batch at hok
  by_cases h1 : texts = []
  · rw [if_pos h1] at hok
    injection hok with hok
    exact absurd hok.symm hne
  · rw [if_neg h1] at hok
    by_cases h2 : texts.filter (fun e => decide (e.1 ≠ CORE_KEYS_MARKER)) = []
    · rw [if_pos h2] at hok
      injection hok with hok
      exact absurd hok.symm hne
    · rw [if_neg h2] at hok
      cases resp with
      | fail => exact absurd hok (by simp)
      | ok c =>
        dsimp only at hok
        cases hp : parse (stripFences c) with
        | none => rw [hp] at hok; exact absurd hok (by simp)
        | some d =>
          rw [hp] at hok
          dsimp only at hok
          by_cases hv : validate_translation_result
              (texts.filter (fun e => decide (e.1 ≠ CORE_KEYS_MARKER))) d = []
          · rw [if_pos hv] at hok
            injection hok with hok
            rw [← hok]
            rw [← validate_nil_keyset_eq _ _ hv]
            exact keysOf_strip_marker texts
          · rw [if_neg hv] at hok
            exact absurd hok (by simp)

end Translator

namespace TranslationFlow

theorem keysOf_dictSet (m : KVMap) (k : String) (v : JValue) (k' : String)
    (hk : k' ∈ keysOf (dictSet m k v)) : k' ∈ keysOf m ∨ k' = k := by
  unfold dictSet at hk
  by_cases h : (m.lookup k).isSome
  · rw [if_pos h] at hk
    simp only [keysOf, List.mem_toFinset, List.mem_map] at hk ⊢
    obtain ⟨e, ⟨e', he', hee⟩, hek⟩ := hk
    by_cases heq : e'.1 = k
    · rw [if_pos heq] at hee
      right
      rw [← hek, ← hee]
    · rw [if_neg heq] at hee
      left
      exact ⟨e', he', by rw [hee, hek]⟩
  · rw [if_neg h] at hk
    simp only [keysOf, List.mem_toFinset, List.mem_map, List.mem_append,
      List.mem_singleton] at hk ⊢
    obtain ⟨e, he | he, hek⟩ := hk
    · exact Or.inl ⟨e, he, hek⟩
    · right
      rw [← hek, he]

theorem keysOf_dictUpdate (upd : List (String × JValue)) :
    ∀ (base : KVMap) (k' : String), k' ∈ keysOf (dictUpdate base upd) →
      k' ∈ keysOf base ∨ k' ∈ keysOf upd := by
  induction upd with
  | nil => intro base k' hk; exact Or.inl hk
  | cons e rest ih =>
    intro base k' hk
    unfold dictUpdate at hk ih
    rw [List.foldl_cons] at hk
    rcases ih (dictSet base e.1 e.2) k' hk with h | h
    · rcases keysOf_dictSet base e.1 e.2 k' h with h' | h'
      · exact Or.inl h'
      · right
        simp only [keysOf, List.mem_toFinset, List.mem_map]
        exact ⟨e, List.mem_cons_self e rest, h'.symm⟩
    · right
      simp only [keysOf, List.mem_toFinset, List.mem_map] at h ⊢
      obtain ⟨e', he', hek⟩ := h
      exact ⟨e', List.mem_cons_of_mem e he', hek⟩

theorem accumulateResults_no_marker (results : List KVMap)
    (h : ∀ r ∈ results, CORE_KEYS_MARKER ∉ keysOf r) :
    CORE_KEYS_MARKER ∉ keysOf (accumulateResults results) := by
  unfold accumulateResults
  suffices hgen : ∀ (acc : KVMap), CORE_KEYS_MARKER ∉ keysOf acc →
      CORE_KEYS_MARKER ∉ keysOf (results.foldl dictUpdate acc) by
    apply hgen
    simp [keysOf]
  induction results with
  | nil => intro acc hacc; exact hacc
  | cons r rest ih =>
    intro acc hacc
    rw [List.foldl_cons]
    apply ih
    · intro r' hr'
      exact h r' (List.mem_cons_of_mem r hr')
    · intro habs
      rcases keysOf_dictUpdate r acc CORE_KEYS_MARKER habs with h' | h'
      · exact hacc h'
      · exact h r (List.mem_cons_self r rest) h'

end TranslationFlow

/-- **C10.** For every request execution that terminates with a non-empty
(successful) result, the returned mapping's key set equals the request
payload's key set minus the reserved marker key `'__core_keys__'`; in
particular the marker key never occurs in a successful result, and a
fold of `dict.update` merges of marker-free results (the per-bucket
accumulation of `execute_requests_concurrently`) never contains it. -/
theorem claim_C10_marker_never_persisted (R : Nat) (parse : List Char → Option KVMap)
    (texts : KVMap) (resp : Nat → Translator.ApiResponse) :
    (((Translator.execute_translation_request R
        (fun t => Translator.translate_batch parse texts (resp t))).result ≠ []) →
      keysOf (Translator.execute_translation_request R
          (fun t => Translator.translate_batch parse texts (resp t))).result =
        (keysOf texts).erase CORE_KEYS_MARKER ∧
      CORE_KEYS_MARKER ∉ keysOf (Translator.execute_translation_request R
          (fun t => Translator.translate_batch parse texts (resp t))).result) ∧
    (∀ results : List KVMap, (∀ r ∈ results, CORE_KEYS_MARKER ∉ keysOf r) →
      CORE_KEYS_MARKER ∉ keysOf (TranslationFlow.accumulateResults results)) := by
  constructor
  · intro hne
    unfold Translator.execute_translation_request at hne ⊢
    obtain ⟨u, hu⟩ := Translator.execLoop_ok_source R
      (fun t => Translator.translate_batch parse texts (resp t))
      ((R - 0) + (R - 0)) 0 0 0 rfl hne
    have hkeys := Translator.translate_batch_ok_keys parse texts (resp u) _ hu hne
    refine ⟨hkeys, ?_⟩
    rw [hkeys]
    exact Finset.not_mem_erase _ _
  · exact TranslationFlow.accumulateResults_no_marker

/-- Witness for C10, at a singleton result list. -/
theorem claim_C10_marker_never_persisted_witness :
    (∀ r ∈ ([[("k", JValue.str "v")]] : List KVMap), CORE_KEYS_MARKER ∉ keysOf r) ∧
    CORE_KEYS_MARKER ∉ keysOf
      (TranslationFlow.accumulateResults [[("k", JValue.str "v")]]) :=
  ⟨by decide,
    (claim_C10_marker_never_persisted 10 (fun _ => none) [] (fun _ => .fail)).2
      [[("k", JValue.str "v")]] (by decide)⟩
